import Mathlib

/-!
# quang: the filter translator (`filter_translator.go`, `stack.go`)

A shallow embedding of the Go package `quang` and a verification of its
natural-language specification.

Modelling conventions.

* A Go `string` is a sequence of bytes; it is modelled as a `List Char`, one
  list element per unit of the string.  The only unit the tokenizer tests is
  the space `' '` (one byte, never part of a multi-byte rune), so walking the
  string rune by rune as `range s` does and walking it unit by unit agree.
* Go `int` is modelled by `Int` (priorities, operand values) and by `Nat`
  (lengths, counts and indices, which are never negative).
* A Go method on `*FilterTranslator` becomes a function that takes the
  translator and returns a `Result`: either a normal return with the value and
  the translator afterwards, or a `Failure` (a returned `error`, a run-time
  panic, or the model running out of fuel) with the translator at that point.
* Loops whose termination is not structural take a fuel argument; the theorems
  show that the fuel handed over by the callers is never used up.
-/

namespace Quang

/-! ## Values of the BSON library that the translator builds -/

/-- The Go values of dynamic type `any` that flow through the translator:
`int`, `string`, `bson.D` (an ordered list of `primitive.E{Key, Value}`),
`bson.A` (a list of values) and `*bson.D` (a pointer to a document). -/
inductive GoAny : Type
  | int (n : Int)
  | str (s : List Char)
  | D (es : List (List Char × GoAny))
  | A (xs : List GoAny)
  | ptrD (es : List (List Char × GoAny))

mutual
/-- Decidable equality of `GoAny` values, by structural recursion. -/
def GoAny.decEq : (a b : GoAny) → Decidable (a = b)
  | .int a, .int b =>
    if h : a = b then isTrue (by rw [h]) else isFalse (by intro e; cases e; exact h rfl)
  | .str a, .str b =>
    if h : a = b then isTrue (by rw [h]) else isFalse (by intro e; cases e; exact h rfl)
  | .D a, .D b =>
    match GoAny.decEqD a b with
    | isTrue h => isTrue (by rw [h])
    | isFalse h => isFalse (by intro e; cases e; exact h rfl)
  | .A a, .A b =>
    match GoAny.decEqA a b with
    | isTrue h => isTrue (by rw [h])
    | isFalse h => isFalse (by intro e; cases e; exact h rfl)
  | .ptrD a, .ptrD b =>
    match GoAny.decEqD a b with
    | isTrue h => isTrue (by rw [h])
    | isFalse h => isFalse (by intro e; cases e; exact h rfl)
  | .int _, .str _ => isFalse (by intro e; cases e)
  | .int _, .D _ => isFalse (by intro e; cases e)
  | .int _, .A _ => isFalse (by intro e; cases e)
  | .int _, .ptrD _ => isFalse (by intro e; cases e)
  | .str _, .int _ => isFalse (by intro e; cases e)
  | .str _, .D _ => isFalse (by intro e; cases e)
  | .str _, .A _ => isFalse (by intro e; cases e)
  | .str _, .ptrD _ => isFalse (by intro e; cases e)
  | .D _, .int _ => isFalse (by intro e; cases e)
  | .D _, .str _ => isFalse (by intro e; cases e)
  | .D _, .A _ => isFalse (by intro e; cases e)
  | .D _, .ptrD _ => isFalse (by intro e; cases e)
  | .A _, .int _ => isFalse (by intro e; cases e)
  | .A _, .str _ => isFalse (by intro e; cases e)
  | .A _, .D _ => isFalse (by intro e; cases e)
  | .A _, .ptrD _ => isFalse (by intro e; cases e)
  | .ptrD _, .int _ => isFalse (by intro e; cases e)
  | .ptrD _, .str _ => isFalse (by intro e; cases e)
  | .ptrD _, .D _ => isFalse (by intro e; cases e)
  | .ptrD _, .A _ => isFalse (by intro e; cases e)
/-- Decidable equality of documents. -/
def GoAny.decEqD : (a b : List (List Char × GoAny)) → Decidable (a = b)
  | [], [] => isTrue rfl
  | [], _ :: _ => isFalse (by intro e; cases e)
  | _ :: _, [] => isFalse (by intro e; cases e)
  | (k, v) :: r, (k', v') :: r' =>
    if hk : k = k' then
      match GoAny.decEq v v' with
      | isTrue hv =>
        match GoAny.decEqD r r' with
        | isTrue hr => isTrue (by rw [hk, hv, hr])
        | isFalse hr => isFalse (by intro e; cases e; exact hr rfl)
      | isFalse hv => isFalse (by intro e; cases e; exact hv rfl)
    else isFalse (by intro e; cases e; exact hk rfl)
/-- Decidable equality of arrays. -/
def GoAny.decEqA : (a b : List GoAny) → Decidable (a = b)
  | [], [] => isTrue rfl
  | [], _ :: _ => isFalse (by intro e; cases e)
  | _ :: _, [] => isFalse (by intro e; cases e)
  | v :: r, v' :: r' =>
    match GoAny.decEq v v' with
    | isTrue hv =>
      match GoAny.decEqA r r' with
      | isTrue hr => isTrue (by rw [hv, hr])
      | isFalse hr => isFalse (by intro e; cases e; exact hr rfl)
    | isFalse hv => isFalse (by intro e; cases e; exact hv rfl)
end

instance : DecidableEq GoAny := GoAny.decEq

/-- The Go struct `primitive.E`: a key and a value. -/
abbrev E : Type := List Char × GoAny

/-- The Go type `bson.D`: an ordered document. -/
abbrev D : Type := List E

/-! ## Constants and tables (`filter_translator.go` lines 12-80) -/

/-- Go `type DATABASE_TYPE int`. -/
abbrev DATABASE_TYPE : Type := Int

/-- Constant `MONGO DATABASE_TYPE = iota`. -/
def MONGO : DATABASE_TYPE := 0

/-- Constant `SQL`, the second constant of the `iota` block. -/
def SQL : DATABASE_TYPE := 1

/-- Go `type _OUTPUT_TYPE int` with its three constants. -/
inductive _OUTPUT_TYPE : Type
  | BSON
  | STR
  | NUM
  deriving DecidableEq

/-- Go `type filter_op_type string`. -/
abbrev filter_op_type : Type := List Char

/-- Go `type mongo_op_type string`. -/
abbrev mongo_op_type : Type := List Char

def FOP_OR : filter_op_type := "OR".toList
def FOP_AND : filter_op_type := "AND".toList
def FOP_EQ : filter_op_type := "EQ".toList
def FOP_GT : filter_op_type := "GT".toList
def FOP_GTE : filter_op_type := "GTE".toList
def FOP_LT : filter_op_type := "LT".toList
def FOP_LTE : filter_op_type := "LTE".toList
def FOP_LE : filter_op_type := "LE".toList
def MOP_OR : mongo_op_type := "$or".toList
def MOP_AND : mongo_op_type := "$and".toList
def MOP_EQ : mongo_op_type := "$eq".toList
def MOP_GT : mongo_op_type := "$gt".toList
def MOP_GTE : mongo_op_type := "$gte".toList
def MOP_LT : mongo_op_type := "$lt".toList
def MOP_LTE : mongo_op_type := "$lte".toList
def MOP_LE : mongo_op_type := "$regex".toList

/-- Lookup in a Go map literal, given as the list of its entries (the keys of
every literal below are distinct).  `none` is the `ok = false` result. -/
def mapGet {κ ν : Type} [DecidableEq κ] : List (κ × ν) → κ → Option ν
  | [], _ => none
  | (k', v) :: m, k => if k = k' then some v else mapGet m k

/-- Go `var fop_priorities = map[filter_op_type]int{...}`. -/
def fop_priorities : List (filter_op_type × Int) :=
  [ (FOP_OR, 3), (FOP_AND, 2), (FOP_EQ, 1), (FOP_GT, 1), (FOP_GTE, 1),
    (FOP_LT, 1), (FOP_LTE, 1), (FOP_LE, 1) ]

/-- Go `var fop_table = map[string]filter_op_type{...}`; the entry for `"GT"` is
`FOP_EQ` in the source. -/
def fop_table : List (List Char × filter_op_type) :=
  [ ("OR".toList, FOP_OR), ("AND".toList, FOP_AND), ("EQ".toList, FOP_EQ),
    ("GT".toList, FOP_EQ), ("GTE".toList, FOP_GTE), ("LT".toList, FOP_LT),
    ("LTE".toList, FOP_LTE), ("LE".toList, FOP_LE) ]

/-- Go `var fop_translation_tb_mongo = map[filter_op_type]mongo_op_type{...}`. -/
def fop_translation_tb_mongo : List (filter_op_type × mongo_op_type) :=
  [ (FOP_OR, MOP_OR), (FOP_AND, MOP_AND), (FOP_EQ, MOP_EQ), (FOP_GT, MOP_GT),
    (FOP_GTE, MOP_GTE), (FOP_LT, MOP_LT), (FOP_LTE, MOP_LTE), (FOP_LE, MOP_LE) ]

/-! ## The stack (`stack.go`) -/

/-- Go `type Stack[T any] struct { items []T; lock sync.RWMutex }`.  The lock
has no effect on a single-threaded run and is left out. -/
structure Stack (T : Type) where
  items : List T
  deriving DecidableEq

/-- Go `NewStack`: the empty stack. -/
def NewStack {T : Type} : Stack T := ⟨[]⟩

/-- Go `Count`: `len(s.items)`. -/
def Stack.Count {T : Type} (s : Stack T) : Nat := s.items.length

/-- Go `Push`: `s.items = append(s.items, item)`. -/
def Stack.Push {T : Type} (s : Stack T) (item : T) : Stack T := ⟨s.items ++ [item]⟩

/-- Go `Pop`: the last item (or `nil`, here `none`, on the empty stack) and the
stack without it. -/
def Stack.Pop {T : Type} (s : Stack T) : Option T × Stack T :=
  if s.items.length = 0 then (none, s)
  else (s.items.getLast?, ⟨s.items.take (s.items.length - 1)⟩)

/-- Go `Peek`: the last item, or `nil` on the empty stack; the stack is unchanged. -/
def Stack.Peek {T : Type} (s : Stack T) : Option T :=
  if s.items.length = 0 then none else s.items.getLast?

/-! ## The translator state and the outcome of a call -/

/-- Go `type filter_out_i struct { val any; valType _OUTPUT_TYPE }`. -/
structure filter_out_i where
  val : GoAny
  valType : _OUTPUT_TYPE
  deriving DecidableEq

/-- Go `type filter_op_i struct { t filter_op_type; p int }`. -/
structure filter_op_i where
  t : filter_op_type
  p : Int
  deriving DecidableEq

/-- Go `type FilterTranslator struct`: the two stacks live in the translator. -/
structure FilterTranslator where
  outputStack : Stack filter_out_i
  operatorStack : Stack filter_op_i
  deriving DecidableEq

/-- Go `NewFilterTranslator`: both stacks empty. -/
def NewFilterTranslator : FilterTranslator := ⟨NewStack, NewStack⟩

/-- The `error` values the package creates, one constructor per message. -/
inductive Err : Type
  /-- Message `"end of string reached without whitespace delimiter"`. -/
  | noDelimiter
  /-- Message `"should only be 1 in output stack from unwinding"`. -/
  | arity
  /-- Message `"operator / operand mismatch - have(expect) - operators: %d(>0), operands: %d(>=2)"`
  with the two counts that are formatted into it. -/
  | mismatch (op_cnt out_cnt : Nat)
  /-- Message `"%s does not translate to an associated mongodb operator"`, with
  the value of `mop` that is formatted into it. -/
  | noMongoOp (mop : mongo_op_type)
  /-- Message `"%s operator does not have a priority"`. -/
  | noPriority (t : filter_op_type)
  deriving DecidableEq

/-- The ways a call can abort instead of returning. -/
inductive Panic : Type
  /-- A field read through a nil pointer. -/
  | nilDeref
  /-- A failed type assertion `v.(T)`. -/
  | typeAssert
  /-- The explicit `panic("unimplemented")`. -/
  | unimplemented
  deriving DecidableEq

/-- How a call ends when it does not return a value. -/
inductive Failure : Type
  /-- A non-nil `error` is returned to the caller. -/
  | error (e : Err)
  /-- The call aborts with a run-time panic. -/
  | panic (p : Panic)
  /-- The model ran out of fuel (never the case, see `TranslateToMongo_ne_fuel`). -/
  | fuel
  deriving DecidableEq

/-- Outcome of a method of `*FilterTranslator`, with the translator as the call
leaves it. -/
inductive Result (α : Type) : Type
  | ok (a : α) (ft : FilterTranslator)
  | fail (f : Failure) (ft : FilterTranslator)
  deriving DecidableEq

/-! ## The standard-library function `strconv.Atoi` -/

/-- Value of a decimal digit, `none` for any other unit. -/
def digitVal (c : Char) : Option Nat :=
  if '0' ≤ c ∧ c ≤ '9' then some (c.toNat - '0'.toNat) else none

/-- Reads a run of decimal digits, most significant first, onto `acc`. -/
def parseDigits : List Char → Nat → Option Nat
  | [], acc => some acc
  | c :: cs, acc =>
    match digitVal c with
    | none => none
    | some d => parseDigits cs (acc * 10 + d)

/-- Go `strconv.Atoi` as documented by the standard library, for a 64-bit `int`:
an optional sign `+` or `-`, then one or more decimal digits and nothing else;
the value must fit in `[-2^63, 2^63 - 1]`.  Every other input gives an error,
here `none`. -/
def Atoi (s : List Char) : Option Int :=
  match s with
  | [] => none
  | c :: cs =>
    let neg : Bool := c = '-'
    let ds : List Char := if c = '-' ∨ c = '+' then cs else s
    if ds = [] then none
    else
      match parseDigits ds 0 with
      | none => none
      | some n =>
        if neg then (if n ≤ 2 ^ 63 then some (-(n : Int)) else none)
        else (if n < 2 ^ 63 then some (n : Int) else none)

/-! ## The tokenizer and the table lookups (`filter_translator.go` lines 220-265) -/

/-- The `for i, c := range s` loop of `getFilterWord`, started at index `i` on
the units not yet visited, with the current values of `sIndx` and `inWord`.
Returns `sIndx` and `eIndx` as they are when the loop is left (`eIndx` is still
`0` unless the loop was left by `break`). -/
def getFilterWordLoop : List Char → Nat → Nat → Bool → Nat × Nat
  | [], _, sIndx, _ => (sIndx, 0)
  | c :: cs, i, sIndx, inWord =>
    if c = ' ' ∧ inWord = false then getFilterWordLoop cs (i + 1) (sIndx + 1) inWord
    else if c ≠ ' ' ∧ inWord = false then getFilterWordLoop cs (i + 1) sIndx true
    else if c = ' ' ∧ inWord = true then (sIndx, i)
    else getFilterWordLoop cs (i + 1) sIndx inWord

/-- Go `getFilterWord`: the word `s[sIndx:eIndx]` and the consumed length
`eIndx`.  (The slice bounds always satisfy `sIndx ≤ eIndx ≤ len(s)`, see
`getFilterWord_bounds`, so the slice expression cannot panic.) -/
def getFilterWord (s : List Char) : List Char × Nat :=
  let r := getFilterWordLoop s 0 0 false
  let sIndx := r.1
  let eIndx := if r.2 = 0 then s.length else r.2
  ((s.take eIndx).drop sIndx, eIndx)

/-- Go `isOperator`: lookup in `fop_table`. -/
def isOperator (s : List Char) : Option filter_op_type := mapGet fop_table s

/-- Go `getPriority`: lookup in `fop_priorities`. -/
def getPriority (fopt : filter_op_type) : Option Int := mapGet fop_priorities fopt

/-- Go `new_filter_op_i`. -/
def new_filter_op_i (fopt : filter_op_type) : Except Err filter_op_i :=
  match getPriority fopt with
  | none => .error (.noPriority fopt)
  | some p => .ok { t := fopt, p := p }

/-! ## Serialization and the reduction engine (lines 104-218) -/

/-- Go `fopToBSON` on non-nil arguments.  The unchecked type assertions
`x.val.(*bson.D)`, `y.val.(*bson.D)` and `x.val.(string)` panic when the dynamic
type is another one.  When the kind is missing from the table, `mop` is the zero
value of its type, the empty string, and that is what the error formats. -/
def fopToBSON (fop : filter_op_i) (x y : filter_out_i) : Except Failure D :=
  match mapGet fop_translation_tb_mongo fop.t with
  | none => .error (.error (.noMongoOp []))
  | some mop =>
    if fop.t = FOP_OR ∨ fop.t = FOP_AND then
      match x.val, y.val with
      | .ptrD dx, .ptrD dy => .ok [(mop, .A [.ptrD dx, .ptrD dy])]
      | _, _ => .error (.panic .typeAssert)
    else
      match x.val with
      | .str keyVal => .ok [(keyVal, .D [(mop, y.val)])]
      | _ => .error (.panic .typeAssert)

/-- Go `unwind`.  After the guard the three `Pop` calls cannot return nil; a nil
would be dereferenced inside `fopToBSON`. -/
def unwind (ft : FilterTranslator) : Result Unit :=
  let op_cnt := ft.operatorStack.Count
  let out_cnt := ft.outputStack.Count
  if op_cnt ≤ 0 ∨ out_cnt < 2 then .fail (.error (.mismatch op_cnt out_cnt)) ft
  else
    let op := ft.operatorStack.Pop
    let y := ft.outputStack.Pop
    let x := y.2.Pop
    let ft1 : FilterTranslator := ⟨x.2, op.2⟩
    match op.1, x.1, y.1 with
    | some fop, some xv, some yv =>
      match fopToBSON fop xv yv with
      | .ok bson => .ok () ⟨ft1.outputStack.Push ⟨.ptrD bson, .BSON⟩, ft1.operatorStack⟩
      | .error f => .fail f ft1
    | _, _, _ => .fail (.panic .nilDeref) ft1

/-- The loop `for i := 0; i < op_cnt; i++` of `flush`, with the number of
iterations still to run. -/
def flushLoop : Nat → FilterTranslator → Result Unit
  | 0, ft => .ok () ft
  | n + 1, ft =>
    match unwind ft with
    | .ok _ ft1 => flushLoop n ft1
    | .fail f ft1 => .fail f ft1

/-- Go `flush`.  `Pop` on an empty output stack returns nil and `out.val`
dereferences it; `out.val.(*bson.D)` is an unchecked type assertion. -/
def flush (ft : FilterTranslator) : Result D :=
  match flushLoop ft.operatorStack.Count ft with
  | .fail f ft1 => .fail f ft1
  | .ok _ ft1 =>
    if ft1.outputStack.Count > 1 then .fail (.error .arity) ft1
    else
      let out := ft1.outputStack.Pop
      let ft2 : FilterTranslator := ⟨out.2, ft1.operatorStack⟩
      match out.1 with
      | none => .fail (.panic .nilDeref) ft2
      | some o =>
        match o.val with
        | .ptrD d => .ok d ft2
        | _ => .fail (.panic .typeAssert) ft2

/-- The condition of the inner loop of `TranslateToMongo` (line 136):
`top_op != nil && fop.p > top_op.p`, with `top_op` the result of `Peek`. -/
def unwindCond (p : Int) (ft : FilterTranslator) : Bool :=
  match ft.operatorStack.Peek with
  | none => false
  | some top_op => decide (p > top_op.p)

/-- The inner loop of `TranslateToMongo` (lines 136-142): while the top
operator has a strictly smaller priority than `p`, unwind.  Every successful
`unwind` removes one operator, so the operator count is enough fuel. -/
def unwindLoop (p : Int) : Nat → FilterTranslator → Result Unit
  | 0, ft => if unwindCond p ft then .fail .fuel ft else .ok () ft
  | fuel + 1, ft =>
    if unwindCond p ft then
      match unwind ft with
      | .ok _ ft1 => unwindLoop p fuel ft1
      | .fail f ft1 => .fail f ft1
    else .ok () ft

/-- The body of the scan loop of `TranslateToMongo` for one word `w` (lines
128-153): an operator unwinds the strictly-lower-priority operators on top and
is pushed; any other word is pushed as an integer or as a string operand. -/
def scanStep (w : List Char) (ft : FilterTranslator) : Result Unit :=
  match isOperator w with
  | some fopt =>
    match new_filter_op_i fopt with
    | .error e => .fail (.error e) ft
    | .ok fop =>
      let r : Result Unit :=
        if ft.operatorStack.Count > 0 then unwindLoop fop.p ft.operatorStack.Count ft
        else .ok () ft
      match r with
      | .fail f ft1 => .fail f ft1
      | .ok _ ft1 => .ok () ⟨ft1.outputStack, ft1.operatorStack.Push fop⟩
  | none =>
    match Atoi w with
    | some n => .ok () ⟨ft.outputStack.Push ⟨.int n, .NUM⟩, ft.operatorStack⟩
    | none => .ok () ⟨ft.outputStack.Push ⟨.str w, .STR⟩, ft.operatorStack⟩

/-- The scan loop `for i := 0; i < _LEN; ` of `TranslateToMongo`, at index `i`,
followed by `flush`.  Every iteration advances `i`, so `len(s)` is enough fuel. -/
def scanLoop (s : List Char) : Nat → Nat → FilterTranslator → Result D
  | fuel, i, ft =>
    if i < s.length then
      match fuel with
      | 0 => .fail .fuel ft
      | fuel + 1 =>
        let wn := getFilterWord (s.drop i)
        if wn.2 = 0 then .fail (.error .noDelimiter) ft
        else
          match scanStep wn.1 ft with
          | .fail f ft1 => .fail f ft1
          | .ok _ ft1 => scanLoop s fuel (i + wn.2) ft1
    else flush ft

/-- Go `TranslateToMongo`. -/
def TranslateToMongo (ft : FilterTranslator) (s : List Char) : Result D :=
  scanLoop s s.length 0 ft

/-- Go `Translate`: `MONGO` delegates to `TranslateToMongo`; `SQL` falls through
to `default`, which is `panic("unimplemented")`. -/
def Translate (ft : FilterTranslator) (s : List Char) (t : DATABASE_TYPE) : Result D :=
  if t = MONGO then TranslateToMongo ft s
  else .fail (.panic .unimplemented) ft

/-! ## Words of an input and the run of the engine over them -/

/-- The spaces at the start of `s`. -/
def leadingSpaces (s : List Char) : List Char :=
  s.takeWhile (fun c => decide (c = ' '))

/-- The first maximal space-free run of `s` (empty when `s` is all spaces). -/
def firstWord (s : List Char) : List Char :=
  (s.dropWhile (fun c => decide (c = ' '))).takeWhile (fun c => decide (c ≠ ' '))

/-- What is left of `s` after its leading spaces and its first word. -/
def afterWord (s : List Char) : List Char :=
  (s.dropWhile (fun c => decide (c = ' '))).dropWhile (fun c => decide (c ≠ ' '))

/-- The words `getFilterWord` hands to the scan loop when it is applied again
and again to what is left of the input, as `TranslateToMongo` does. -/
def scanWordsAux : Nat → List Char → List (List Char)
  | 0, _ => []
  | fuel + 1, rest =>
    if rest = [] then []
    else (getFilterWord rest).1 :: scanWordsAux fuel (rest.drop (getFilterWord rest).2)

/-- The words of the input `s` in the order the scan loop classifies them. -/
def scanWords (s : List Char) : List (List Char) := scanWordsAux s.length s

/-- The scan loop over a list of words already cut out of the input: the loop
body on each word in turn, stopping at the first failure, then `flush`. -/
def runWords : List (List Char) → FilterTranslator → Result D
  | [], ft => flush ft
  | w :: ws, ft =>
    match scanStep w ft with
    | .fail f ft1 => .fail f ft1
    | .ok _ ft1 => runWords ws ft1

/-- The input string made of the given words separated by single spaces. -/
def joinWords : List (List Char) → List Char
  | [] => []
  | [w] => w
  | w :: w' :: ws => w ++ ' ' :: joinWords (w' :: ws)

/-- A token as the claims use the word: non-empty and without a space. -/
def IsToken (w : List Char) : Prop := w ≠ [] ∧ ' ' ∉ w

instance (w : List Char) : Decidable (IsToken w) :=
  inferInstanceAs (Decidable (w ≠ [] ∧ ' ' ∉ w))

/-! ## The filter language of the specification -/

/-- The comparison keywords of the filter language. -/
inductive CmpOp : Type
  | EQ
  | GT
  | GTE
  | LT
  | LTE
  | LE
  deriving DecidableEq

/-- Spelling of a comparison keyword in the input. -/
def CmpOp.keyword : CmpOp → List Char
  | .EQ => "EQ".toList
  | .GT => "GT".toList
  | .GTE => "GTE".toList
  | .LT => "LT".toList
  | .LTE => "LTE".toList
  | .LE => "LE".toList

/-- The operator kind `fop_table` holds for the keyword (`FOP_EQ` for `GT`). -/
def CmpOp.fop : CmpOp → filter_op_type
  | .EQ => FOP_EQ
  | .GT => FOP_EQ
  | .GTE => FOP_GTE
  | .LT => FOP_LT
  | .LTE => FOP_LTE
  | .LE => FOP_LE

/-- The symbol the code emits for a comparison keyword: the entry of
`fop_translation_tb_mongo` for the kind that `fop_table` gives the keyword (see
`mapGet_symbol`).  For `GT` this is `$eq`, the symbol of `FOP_EQ`, and not
`MOP_GT`, which is `$gt`. -/
def CmpOp.symbol : CmpOp → List Char
  | .EQ => "$eq".toList
  | .GT => "$eq".toList
  | .GTE => "$gte".toList
  | .LT => "$lt".toList
  | .LTE => "$lte".toList
  | .LE => "$regex".toList

/-- The two logical keywords. -/
inductive Conn : Type
  | AND
  | OR
  deriving DecidableEq

/-- Spelling of a logical keyword in the input. -/
def Conn.keyword : Conn → List Char
  | .AND => "AND".toList
  | .OR => "OR".toList

/-- The operator kind of a logical keyword. -/
def Conn.fop : Conn → filter_op_type
  | .AND => FOP_AND
  | .OR => FOP_OR

/-- The priority of a logical keyword. -/
def Conn.prio : Conn → Int
  | .AND => 2
  | .OR => 3

/-- The Mongo symbol of a logical keyword. -/
def Conn.symbol : Conn → List Char
  | .AND => "$and".toList
  | .OR => "$or".toList

/-- A field token: a token that is neither an operator keyword nor
integer-parseable. -/
def IsField (F : List Char) : Prop := IsToken F ∧ isOperator F = none ∧ Atoi F = none

/-- A value token: a token that is not an operator keyword. -/
def IsValue (v : List Char) : Prop := IsToken v ∧ isOperator v = none

instance (F : List Char) : Decidable (IsField F) :=
  inferInstanceAs (Decidable (IsToken F ∧ isOperator F = none ∧ Atoi F = none))

instance (v : List Char) : Decidable (IsValue v) :=
  inferInstanceAs (Decidable (IsToken v ∧ isOperator v = none))

/-- The operand value of a token: the integer it parses to, else the token as
a string. -/
def operandVal (v : List Char) : GoAny :=
  match Atoi v with
  | some n => .int n
  | none => .str v

/-- The operand-stack item of an operand token. -/
def operandItem (w : List Char) : filter_out_i :=
  match Atoi w with
  | some n => ⟨.int n, .NUM⟩
  | none => ⟨.str w, .STR⟩

/-- The operand-stack item of a reduction result. -/
def docItem (d : D) : filter_out_i := ⟨.ptrD d, .BSON⟩

/-- A comparison `F op v` of the filter language. -/
structure Cmp where
  F : List Char
  op : CmpOp
  v : List Char

/-- Well-formed comparison: a field token, a keyword, a value token. -/
def Cmp.WF (c : Cmp) : Prop := IsField c.F ∧ IsValue c.v

instance (c : Cmp) : Decidable c.WF :=
  inferInstanceAs (Decidable (IsField c.F ∧ IsValue c.v))

/-- The three words of a comparison. -/
def Cmp.words (c : Cmp) : List (List Char) := [c.F, c.op.keyword, c.v]

/-- The document of a comparison, `{F: {symbol: value}}`. -/
def Cmp.doc (c : Cmp) : D := [(c.F, .D [(c.op.symbol, operandVal c.v)])]

/-- The document of a logical combination, `{symbol: [x, y]}`. -/
def connDoc (L : Conn) (x y : D) : D := [(L.symbol, .A [.ptrD x, .ptrD y])]

/-- Right-nested combination of a non-empty list of documents:
`[d1, d2, d3]` gives `{L: [d1, {L: [d2, d3]}]}`. -/
def nestRight (L : Conn) : List D → D
  | [] => []
  | [d] => d
  | d :: d' :: ds => connDoc L d (nestRight L (d' :: ds))

/-- The words of `(L c)*`, a sequence of logical keywords each followed by a
comparison. -/
def tailWords : List (Conn × Cmp) → List (List Char)
  | [] => []
  | (L, c) :: rest => L.keyword :: (c.words ++ tailWords rest)

/-- The words of the expression `c (L c)*`. -/
def exprWords (c : Cmp) (rest : List (Conn × Cmp)) : List (List Char) :=
  c.words ++ tailWords rest

/-- The comparisons of `c (L c)*` split into groups at the `OR` keywords. -/
def groupsAtOr : Cmp → List (Conn × Cmp) → List (List Cmp)
  | c, [] => [[c]]
  | c, (.OR, c') :: rest => [c] :: groupsAtOr c' rest
  | c, (.AND, c') :: rest =>
    match groupsAtOr c' rest with
    | g :: gs => (c :: g) :: gs
    | [] => [[c]]

/-- The reference precedence parse: every group is the right-nested `$and` of
its comparison documents and the groups are combined by right-nested `$or`. -/
def referenceParse (c : Cmp) (rest : List (Conn × Cmp)) : D :=
  nestRight .OR ((groupsAtOr c rest).map (fun g => nestRight .AND (g.map Cmp.doc)))

/-- Number of operand words: the words that are not operator keywords. -/
def countOperands (ws : List (List Char)) : Nat :=
  ws.countP (fun w => (isOperator w).isNone)

/-- Number of operator words. -/
def countOperators (ws : List (List Char)) : Nat :=
  ws.countP (fun w => (isOperator w).isSome)

/-- Two operand words stand next to each other, with no operator word between
them. -/
def AdjacentOperands (ws : List (List Char)) : Prop :=
  ∃ pre a b post, ws = pre ++ a :: b :: post ∧ isOperator a = none ∧ isOperator b = none

/-- Every operator word stands between two operand words: the first and the
last word are operands and no two operator words are adjacent. -/
def OperatorsBetweenOperands (ws : List (List Char)) : Prop :=
  (∀ w ∈ ws.head?, isOperator w = none) ∧ (∀ w ∈ ws.getLast?, isOperator w = none)
    ∧ List.Chain' (fun a b => isOperator a = none ∨ isOperator b = none) ws

/-- A failure that is an error returned to the caller or a failed type
assertion: the two ways in which the engine rejects an input by design. -/
def Failure.ErrorOrAssert : Failure → Prop
  | .error _ => True
  | .panic .typeAssert => True
  | _ => False

/-! ## The tokens of an input -/

/-- The maximal non-empty space-free substrings of what is left of the input,
given the substring `cur` that is being read. -/
def tokensAux : List Char → List Char → List (List Char)
  | [], cur => if cur = [] then [] else [cur]
  | c :: cs, cur =>
    if c = ' ' then (if cur = [] then tokensAux cs [] else cur :: tokensAux cs [])
    else tokensAux cs (cur ++ [c])

/-- The tokens of an input string: its maximal non-empty space-free substrings,
in order.  This follows the wording of the specification, not the tokenizer of
the code. -/
def inputTokens (s : List Char) : List (List Char) := tokensAux s []

/-! ## States of the translator within and across calls -/

/-- The translator as a call leaves it, whether the call returned or failed. -/
def Result.state {α : Type} : Result α → FilterTranslator
  | .ok _ ft => ft
  | .fail _ ft => ft

/-- The translator after the calls `TranslateToMongo(s)` for the inputs of the
list, made one after the other on the same translator. -/
def afterCalls : FilterTranslator → List (List Char) → FilterTranslator
  | ft, [] => ft
  | ft, s :: rest => afterCalls (TranslateToMongo ft s).state rest

/-- Every call of the sequence `afterCalls` makes returned a document. -/
def AllReturned : FilterTranslator → List (List Char) → Prop
  | _, [] => True
  | ft, s :: rest =>
    (∃ d ft1, TranslateToMongo ft s = .ok d ft1)
      ∧ AllReturned (TranslateToMongo ft s).state rest

/-- The loop body of the scan over a list of words, stopping at the first
failure, without the final `flush`: the state of the scan after these words. -/
def runSteps : List (List Char) → FilterTranslator → Result Unit
  | [], ft => .ok () ft
  | w :: ws, ft =>
    match scanStep w ft with
    | .fail f ft1 => .fail f ft1
    | .ok _ ft1 => runSteps ws ft1

/-- The priorities on the operator stack are weakly decreasing from bottom to
top: no operator sits above an operator of strictly lower priority. -/
def OpsSorted (ft : FilterTranslator) : Prop :=
  ft.operatorStack.items.Pairwise (fun below above => above.p ≤ below.p)

/-- Every operator kind on the operator stack has an entry in
`fop_translation_tb_mongo`. -/
def OpsKnown (ft : FilterTranslator) : Prop :=
  ∀ op ∈ ft.operatorStack.items, mapGet fop_translation_tb_mongo op.t ≠ none

/-- The failures that the code below the scan loop produces: the arity error,
the mismatch error, the missing-symbol error and the two run-time panics. -/
def Failure.FromEngine : Failure → Prop
  | .error .arity => True
  | .error (.mismatch _ _) => True
  | .error (.noMongoOp _) => True
  | .panic .typeAssert => True
  | .panic .nilDeref => True
  | _ => False

/-- The failure is the error "does not translate to an associated mongodb
operator". -/
def Failure.IsNoMongoOp (f : Failure) : Prop := ∃ t, f = .error (.noMongoOp t)

/-! ## Lemmas: the stack -/

@[simp] theorem Stack.Count_mk {T : Type} (xs : List T) :
    (Stack.mk xs).Count = xs.length := rfl

@[simp] theorem Stack.Push_mk {T : Type} (xs : List T) (x : T) :
    (Stack.mk xs).Push x = ⟨xs ++ [x]⟩ := rfl

@[simp] theorem Stack.Pop_nil {T : Type} : (Stack.mk ([] : List T)).Pop = (none, ⟨[]⟩) := rfl

@[simp] theorem Stack.Pop_concat {T : Type} (xs : List T) (x : T) :
    (Stack.mk (xs ++ [x])).Pop = (some x, ⟨xs⟩) := by
  simp [Stack.Pop]

@[simp] theorem Stack.Peek_nil {T : Type} : (Stack.mk ([] : List T)).Peek = none := rfl

@[simp] theorem Stack.Peek_concat {T : Type} (xs : List T) (x : T) :
    (Stack.mk (xs ++ [x])).Peek = some x := by
  simp [Stack.Peek]

theorem Stack.Peek_mem {T : Type} {s : Stack T} {x : T} (h : s.Peek = some x) :
    x ∈ s.items := by
  unfold Stack.Peek at h
  split at h
  · cases h
  · exact List.mem_of_getLast?_eq_some h

/-! ## Lemmas: the tokenizer -/

theorem getFilterWordLoop_inWord (s : List Char) (i sIndx : Nat) :
    getFilterWordLoop s i sIndx true
      = (sIndx, if s.dropWhile (fun c => decide (c ≠ ' ')) = [] then 0
                else i + (s.takeWhile (fun c => decide (c ≠ ' '))).length) := by
  induction s generalizing i with
  | nil => simp [getFilterWordLoop]
  | cons c cs ih =>
    by_cases hc : c = ' '
    · subst hc
      simp [getFilterWordLoop]
    · simp [getFilterWordLoop, hc, ih]
      split <;> omega

theorem getFilterWordLoop_start (s : List Char) (i sIndx : Nat) :
    getFilterWordLoop s i sIndx false
      = (sIndx + (leadingSpaces s).length,
          if afterWord s = [] then 0
          else i + (leadingSpaces s).length + (firstWord s).length) := by
  induction s generalizing i sIndx with
  | nil => simp [getFilterWordLoop, leadingSpaces, afterWord]
  | cons c cs ih =>
    by_cases hc : c = ' '
    · subst hc
      simp only [getFilterWordLoop, and_self, if_true, ih]
      simp [leadingSpaces, afterWord, firstWord]
      constructor
      · omega
      · split <;> omega
    · simp [getFilterWordLoop, hc, getFilterWordLoop_inWord, leadingSpaces, afterWord,
        firstWord]
      split <;> omega

/-- Every string is its leading spaces, then its first word, then the rest. -/
theorem leadingSpaces_firstWord_afterWord (s : List Char) :
    leadingSpaces s ++ (firstWord s ++ afterWord s) = s := by
  simp [leadingSpaces, firstWord, afterWord]

theorem firstWord_space_cons (cs : List Char) : firstWord (' ' :: cs) = firstWord cs := rfl

theorem afterWord_space_cons (cs : List Char) : afterWord (' ' :: cs) = afterWord cs := rfl

theorem afterWord_eq_nil_of_firstWord_eq_nil {s : List Char} (h : firstWord s = []) :
    afterWord s = [] := by
  induction s with
  | nil => rfl
  | cons c cs ih =>
    by_cases hc : c = ' '
    · subst hc
      rw [firstWord_space_cons] at h
      rw [afterWord_space_cons]
      exact ih h
    · simp [firstWord, hc] at h

theorem length_eq_leadingSpaces_add (s : List Char) :
    s.length = (leadingSpaces s).length + (firstWord s).length + (afterWord s).length := by
  conv_lhs => rw [← leadingSpaces_firstWord_afterWord s]
  simp [Nat.add_assoc]

theorem take_drop_of_eq_append (a b c s : List Char) (h : a ++ (b ++ c) = s) :
    (s.take (a.length + b.length)).drop a.length = b ∧ s.drop (a.length + b.length) = c := by
  subst h
  rw [← List.append_assoc, ← List.length_append, List.take_left, List.drop_left,
    List.drop_left]
  exact ⟨rfl, rfl⟩

/-- The tokenizer in closed form: the word is the first maximal space-free run
and the consumed length counts the leading spaces and the word. -/
theorem getFilterWord_eq (s : List Char) :
    getFilterWord s = (firstWord s, (leadingSpaces s).length + (firstWord s).length) := by
  have hlen := length_eq_leadingSpaces_add s
  have hn : (if (getFilterWordLoop s 0 0 false).2 = 0 then s.length
      else (getFilterWordLoop s 0 0 false).2)
      = (leadingSpaces s).length + (firstWord s).length := by
    rw [getFilterWordLoop_start]
    by_cases ha : afterWord s = []
    · simp [ha] at hlen ⊢
      exact hlen
    · have hw : firstWord s ≠ [] := fun h => ha (afterWord_eq_nil_of_firstWord_eq_nil h)
      have hpos : 0 < (firstWord s).length := List.length_pos.mpr hw
      simp only [if_neg ha, Nat.zero_add]
      rw [if_neg (by omega)]
  unfold getFilterWord
  simp only [hn]
  rw [getFilterWordLoop_start]
  simp only [Nat.zero_add]
  rw [(take_drop_of_eq_append _ _ _ s (leadingSpaces_firstWord_afterWord s)).1]

/-- The slice `s[sIndx:eIndx]` of `getFilterWord` is always within bounds. -/
theorem getFilterWord_bounds (s : List Char) :
    (getFilterWordLoop s 0 0 false).1 ≤ (getFilterWord s).2
      ∧ (getFilterWord s).2 ≤ s.length := by
  have hlen := length_eq_leadingSpaces_add s
  rw [getFilterWord_eq, getFilterWordLoop_start]
  simp only [Nat.zero_add]
  omega

theorem drop_getFilterWord (s : List Char) : s.drop (getFilterWord s).2 = afterWord s := by
  rw [getFilterWord_eq]
  exact (take_drop_of_eq_append _ _ _ s (leadingSpaces_firstWord_afterWord s)).2

theorem getFilterWord_pos {s : List Char} (h : s ≠ []) : 0 < (getFilterWord s).2 := by
  rw [getFilterWord_eq]
  cases s with
  | nil => exact absurd rfl h
  | cons c cs =>
    by_cases hc : c = ' '
    · subst hc
      simp [leadingSpaces]
    · simp [firstWord, hc]

theorem afterWord_length_lt {s : List Char} (h : s ≠ []) :
    (afterWord s).length < s.length := by
  have h1 := getFilterWord_pos h
  rw [getFilterWord_eq] at h1
  have h2 := length_eq_leadingSpaces_add s
  simp only at h1
  omega

/-! ## Lemmas: the scan loop is the run over the words of the input -/

theorem scanWordsAux_nil (fuel : Nat) : scanWordsAux fuel [] = [] := by
  cases fuel <;> simp [scanWordsAux]

theorem scanWordsAux_succ {rest : List Char} (fuel : Nat) (h : rest ≠ []) :
    scanWordsAux (fuel + 1) rest = firstWord rest :: scanWordsAux fuel (afterWord rest) := by
  have hd := drop_getFilterWord rest
  rw [getFilterWord_eq] at hd
  simp only [scanWordsAux, if_neg h, getFilterWord_eq, hd]

theorem scanLoop_eq_runWords (s : List Char) (fuel i : Nat) (ft : FilterTranslator)
    (h : (s.drop i).length ≤ fuel) :
    scanLoop s fuel i ft = runWords (scanWordsAux fuel (s.drop i)) ft := by
  induction fuel generalizing i ft with
  | zero =>
    have hi : ¬ i < s.length := by
      simp only [List.length_drop] at h
      omega
    unfold scanLoop
    simp [hi, scanWordsAux, runWords]
  | succ fuel ih =>
    unfold scanLoop
    by_cases hi : i < s.length
    · have hne : s.drop i ≠ [] := by
        intro e
        have := congrArg List.length e
        simp only [List.length_drop, List.length_nil] at this
        omega
      have hpos := getFilterWord_pos hne
      have hlt := afterWord_length_lt hne
      rw [scanWordsAux_succ fuel hne]
      simp only [hi, if_true, if_neg (Nat.pos_iff_ne_zero.mp hpos), runWords]
      rw [getFilterWord_eq]
      cases hstep : scanStep (firstWord (s.drop i)) ft with
      | fail f ft1 => rfl
      | ok u ft1 =>
        simp only
        have hd : s.drop (i + ((leadingSpaces (s.drop i)).length + (firstWord (s.drop i)).length))
            = afterWord (s.drop i) := by
          rw [← List.drop_drop]
          have := drop_getFilterWord (s.drop i)
          rw [getFilterWord_eq] at this
          exact this
        rw [ih _ ft1 (by rw [hd]; omega), hd]
    · have hnil : s.drop i = [] := List.drop_eq_nil_of_le (by omega)
      simp [hi, hnil, scanWordsAux, runWords]

/-- The whole call is the run of the loop body over the words of the input:
the fuel `len(s)` is never used up and the "missing delimiter" error is never
returned. -/
theorem TranslateToMongo_eq_runWords (ft : FilterTranslator) (s : List Char) :
    TranslateToMongo ft s = runWords (scanWords s) ft := by
  unfold TranslateToMongo scanWords
  have := scanLoop_eq_runWords s s.length 0 ft (by simp)
  simpa using this

theorem firstWord_token_append {w tail : List Char} (hw : IsToken w)
    (ht : tail = [] ∨ ∃ t, tail = ' ' :: t) : firstWord (w ++ tail) = w := by
  obtain ⟨hne, hsp⟩ := hw
  cases w with
  | nil => exact absurd rfl hne
  | cons c w =>
    have hc : c ≠ ' ' := fun e => hsp (by simp [e])
    have hall : ∀ a ∈ c :: w, (fun c => decide (c ≠ ' ')) a = true := by
      intro a ha
      have : a ≠ ' ' := fun e => hsp (e ▸ ha)
      simpa using this
    have h1 : (c :: w ++ tail).dropWhile (fun c => decide (c = ' ')) = c :: w ++ tail := by
      simp [hc]
    unfold firstWord
    rw [h1, List.takeWhile_append_of_pos hall]
    rcases ht with rfl | ⟨t, rfl⟩ <;> simp

theorem afterWord_token_append {w tail : List Char} (hw : IsToken w)
    (ht : tail = [] ∨ ∃ t, tail = ' ' :: t) : afterWord (w ++ tail) = tail := by
  obtain ⟨hne, hsp⟩ := hw
  cases w with
  | nil => exact absurd rfl hne
  | cons c w =>
    have hc : c ≠ ' ' := fun e => hsp (by simp [e])
    have hall : ∀ a ∈ c :: w, (fun c => decide (c ≠ ' ')) a = true := by
      intro a ha
      have : a ≠ ' ' := fun e => hsp (e ▸ ha)
      simpa using this
    have h1 : (c :: w ++ tail).dropWhile (fun c => decide (c = ' ')) = c :: w ++ tail := by
      simp [hc]
    unfold afterWord
    rw [h1, List.dropWhile_append_of_pos hall]
    rcases ht with rfl | ⟨t, rfl⟩ <;> simp

theorem joinWords_cons (w : List Char) (ws : List (List Char)) :
    joinWords (w :: ws) = w ++ (if ws = [] then [] else ' ' :: joinWords ws) := by
  cases ws <;> simp [joinWords]

theorem joinWords_ne_nil {w : List Char} (ws : List (List Char)) (hw : IsToken w) :
    joinWords (w :: ws) ≠ [] := by
  rw [joinWords_cons]
  simp [hw.1]

theorem scanWordsAux_joinWords (ws : List (List Char)) (hws : ∀ w ∈ ws, IsToken w)
    (fuel : Nat) (h : (joinWords ws).length ≤ fuel) :
    scanWordsAux fuel (joinWords ws) = ws := by
  induction ws generalizing fuel with
  | nil => simp [joinWords, scanWordsAux_nil]
  | cons w ws ih =>
    have hw : IsToken w := hws w (by simp)
    have hws1 : ∀ w ∈ ws, IsToken w := fun x hx => hws x (by simp [hx])
    have hne := joinWords_ne_nil ws hw
    have htail : (if ws = [] then [] else ' ' :: joinWords ws) = [] ∨
        ∃ t, (if ws = [] then ([] : List Char) else ' ' :: joinWords ws) = ' ' :: t := by
      by_cases e : ws = []
      · left; simp [e]
      · right; exact ⟨joinWords ws, by simp [e]⟩
    cases fuel with
    | zero =>
      exfalso
      have : 0 < (joinWords (w :: ws)).length := List.length_pos.mpr hne
      omega
    | succ fuel =>
      rw [scanWordsAux_succ fuel hne, joinWords_cons, firstWord_token_append hw htail,
        afterWord_token_append hw htail]
      rw [joinWords_cons] at h
      by_cases e : ws = []
      · subst e
        simp [scanWordsAux_nil]
      · simp only [e, if_false, List.length_append, List.length_cons] at h ⊢
        congr 1
        obtain ⟨w1, ws1, rfl⟩ := List.exists_cons_of_ne_nil e
        have hne1 := joinWords_ne_nil ws1 (hws1 w1 (by simp))
        have hpos1 : 0 < (joinWords (w1 :: ws1)).length := List.length_pos.mpr hne1
        cases fuel with
        | zero => omega
        | succ fuel =>
          rw [scanWordsAux_succ fuel (by simp), firstWord_space_cons, afterWord_space_cons,
            ← scanWordsAux_succ fuel hne1]
          exact ih hws1 (fuel + 1) (by omega)

/-- The words of single-space-separated tokens are these tokens. -/
theorem scanWords_joinWords (ws : List (List Char)) (hws : ∀ w ∈ ws, IsToken w) :
    scanWords (joinWords ws) = ws :=
  scanWordsAux_joinWords ws hws _ (Nat.le_refl _)

theorem TranslateToMongo_joinWords (ft : FilterTranslator) (ws : List (List Char))
    (hws : ∀ w ∈ ws, IsToken w) :
    TranslateToMongo ft (joinWords ws) = runWords ws ft := by
  rw [TranslateToMongo_eq_runWords, scanWords_joinWords ws hws]

/-! ## Lemmas: one step of the engine -/

theorem scanStep_operand {w : List Char} (hw : isOperator w = none)
    (outs : List filter_out_i) (ops : Stack filter_op_i) :
    scanStep w ⟨⟨outs⟩, ops⟩ = .ok () ⟨⟨outs ++ [operandItem w]⟩, ops⟩ := by
  unfold scanStep operandItem
  rw [hw]
  cases Atoi w <;> rfl

theorem unwind_concat (outs : List filter_out_i) (x y : filter_out_i)
    (ops : List filter_op_i) (op : filter_op_i) :
    unwind ⟨⟨outs ++ [x, y]⟩, ⟨ops ++ [op]⟩⟩
      = match fopToBSON op x y with
        | .ok b => .ok () ⟨⟨outs ++ [docItem b]⟩, ⟨ops⟩⟩
        | .error f => .fail f ⟨⟨outs⟩, ⟨ops⟩⟩ := by
  have e : outs ++ [x, y] = (outs ++ [x]) ++ [y] := by simp
  unfold unwind
  simp only [e, Stack.Count_mk, Stack.Pop_concat, List.length_append, List.length_singleton]
  rw [if_neg (by omega)]
  cases fopToBSON op x y <;> rfl

theorem isOperator_cmp (op : CmpOp) : isOperator op.keyword = some op.fop := by
  cases op <;> decide

theorem getPriority_cmp (op : CmpOp) : getPriority op.fop = some 1 := by
  cases op <;> decide

theorem isOperator_conn (L : Conn) : isOperator L.keyword = some L.fop := by
  cases L <;> decide

theorem getPriority_conn (L : Conn) : getPriority L.fop = some L.prio := by
  cases L <;> decide

theorem isToken_cmp (op : CmpOp) : IsToken op.keyword := by
  cases op <;> decide

theorem isToken_conn (L : Conn) : IsToken L.keyword := by
  cases L <;> decide

/-- The operator-stack item of a comparison keyword. -/
theorem new_filter_op_i_cmp (op : CmpOp) : new_filter_op_i op.fop = .ok ⟨op.fop, 1⟩ := by
  unfold new_filter_op_i
  rw [getPriority_cmp]

theorem new_filter_op_i_conn (L : Conn) : new_filter_op_i L.fop = .ok ⟨L.fop, L.prio⟩ := by
  unfold new_filter_op_i
  rw [getPriority_conn]

theorem fopToBSON_cmp (op : CmpOp) (F : List Char) (ty : _OUTPUT_TYPE) (y : filter_out_i) :
    fopToBSON ⟨op.fop, 1⟩ ⟨.str F, ty⟩ y = .ok [(F, .D [(op.symbol, y.val)])] := by
  cases op <;> rfl

theorem fopToBSON_conn (L : Conn) (x y : D) :
    fopToBSON ⟨L.fop, L.prio⟩ (docItem x) (docItem y) = .ok (connDoc L x y) := by
  cases L <;> rfl

theorem operandItem_val (w : List Char) : (operandItem w).val = operandVal w := by
  unfold operandItem operandVal
  cases Atoi w <;> rfl

theorem operandItem_field {F : List Char} (h : Atoi F = none) :
    operandItem F = ⟨.str F, .STR⟩ := by
  unfold operandItem
  rw [h]

theorem unwindCond_false (p : Int) (ft : FilterTranslator)
    (h : ∀ top ∈ ft.operatorStack.items, ¬ p > top.p) : unwindCond p ft = false := by
  unfold unwindCond
  cases hp : ft.operatorStack.Peek with
  | none => rfl
  | some top => simpa using h top (Stack.Peek_mem hp)

theorem unwindLoop_stop (p : Int) (fuel : Nat) (ft : FilterTranslator)
    (h : ∀ top ∈ ft.operatorStack.items, ¬ p > top.p) :
    unwindLoop p fuel ft = .ok () ft := by
  cases fuel <;> simp [unwindLoop, unwindCond_false p ft h]

theorem unwindLoop_step (p : Int) (fuel : Nat) (outs : Stack filter_out_i)
    (ops : List filter_op_i) (top : filter_op_i) (h : p > top.p) :
    unwindLoop p (fuel + 1) ⟨outs, ⟨ops ++ [top]⟩⟩
      = match unwind ⟨outs, ⟨ops ++ [top]⟩⟩ with
        | .ok _ ft1 => unwindLoop p fuel ft1
        | .fail f ft1 => .fail f ft1 := by
  have hc : unwindCond p ⟨outs, ⟨ops ++ [top]⟩⟩ = true := by
    simp [unwindCond, h]
  simp only [unwindLoop, hc, if_true]

/-- An operator whose priority does not exceed any priority on the operator
stack is pushed without an unwind. -/
theorem scanStep_push {w : List Char} {t : filter_op_type} {p : Int}
    (hw : isOperator w = some t) (hp : getPriority t = some p)
    (outs : Stack filter_out_i) (ops : List filter_op_i)
    (h : ∀ top ∈ ops, ¬ p > top.p) :
    scanStep w ⟨outs, ⟨ops⟩⟩ = .ok () ⟨outs, ⟨ops ++ [⟨t, p⟩]⟩⟩ := by
  unfold scanStep new_filter_op_i
  rw [hw]
  simp only [hp]
  rw [unwindLoop_stop p _ _ h]
  simp only [ite_self, Stack.Push_mk]

/-! ## Lemmas: chains of reductions -/

theorem nestRight_concat (L : Conn) (ds : List D) (r : D) :
    nestRight L (ds ++ [r]) = ds.foldr (connDoc L) r := by
  induction ds with
  | nil => rfl
  | cons d ds ih =>
    cases ds with
    | nil => rfl
    | cons d' ds' =>
      simp only [List.cons_append, nestRight, List.foldr_cons] at ih ⊢
      exact congrArg (connDoc L d) ih

theorem unwind_conn (L : Conn) (outs : List filter_out_i) (x y : D)
    (ops : List filter_op_i) :
    unwind ⟨⟨outs ++ [docItem x, docItem y]⟩, ⟨ops ++ [⟨L.fop, L.prio⟩]⟩⟩
      = .ok () ⟨⟨outs ++ [docItem (connDoc L x y)]⟩, ⟨ops⟩⟩ := by
  rw [unwind_concat, fopToBSON_conn]

theorem unwind_cmp (c : Cmp) (hF : Atoi c.F = none) (outs : List filter_out_i)
    (ops : List filter_op_i) :
    unwind ⟨⟨outs ++ [operandItem c.F, operandItem c.v]⟩, ⟨ops ++ [⟨c.op.fop, 1⟩]⟩⟩
      = .ok () ⟨⟨outs ++ [docItem c.doc]⟩, ⟨ops⟩⟩ := by
  rw [unwind_concat, operandItem_field hF, fopToBSON_cmp, operandItem_val]
  rfl

theorem flushLoop_add (a b : Nat) (ft : FilterTranslator) :
    flushLoop (a + b) ft
      = match flushLoop a ft with
        | .ok _ ft1 => flushLoop b ft1
        | .fail f ft1 => .fail f ft1 := by
  induction a generalizing ft with
  | zero => simp [flushLoop]
  | succ a ih =>
    rw [Nat.succ_add]
    simp only [flushLoop]
    cases unwind ft with
    | ok u ft1 => exact ih ft1
    | fail f ft1 => rfl

theorem flushLoop_chain (L : Conn) (base : List filter_out_i) (opsBase : List filter_op_i)
    (ds : List D) (r : D) :
    flushLoop ds.length
        ⟨⟨base ++ ds.map docItem ++ [docItem r]⟩,
         ⟨opsBase ++ List.replicate ds.length ⟨L.fop, L.prio⟩⟩⟩
      = .ok () ⟨⟨base ++ [docItem (ds.foldr (connDoc L) r)]⟩, ⟨opsBase⟩⟩ := by
  induction ds using List.reverseRecOn generalizing r with
  | nil => simp [flushLoop]
  | append_singleton ds x ih =>
    have e1 : base ++ (ds ++ [x]).map docItem ++ [docItem r]
        = (base ++ ds.map docItem) ++ [docItem x, docItem r] := by simp
    have e2 : opsBase ++ List.replicate (ds ++ [x]).length (⟨L.fop, L.prio⟩ : filter_op_i)
        = (opsBase ++ List.replicate ds.length ⟨L.fop, L.prio⟩) ++ [⟨L.fop, L.prio⟩] := by
      simp [List.replicate_succ']
    rw [e1, e2, List.length_append, List.length_singleton]
    simp only [flushLoop, unwind_conn, List.foldr_append, List.foldr_cons, List.foldr_nil]
    exact ih (connDoc L x r)

theorem unwindLoop_chain (L : Conn) (p : Int) (hp : p > L.prio) (base : List filter_out_i)
    (opsBase : List filter_op_i) (hbase : ∀ top ∈ opsBase, ¬ p > top.p)
    (ds : List D) (r : D) (fuel : Nat) (hfuel : ds.length ≤ fuel) :
    unwindLoop p fuel
        ⟨⟨base ++ ds.map docItem ++ [docItem r]⟩,
         ⟨opsBase ++ List.replicate ds.length ⟨L.fop, L.prio⟩⟩⟩
      = .ok () ⟨⟨base ++ [docItem (ds.foldr (connDoc L) r)]⟩, ⟨opsBase⟩⟩ := by
  induction ds using List.reverseRecOn generalizing r fuel with
  | nil =>
    simp only [List.map_nil, List.append_nil, List.length_nil, List.replicate_zero,
      List.foldr_nil]
    exact unwindLoop_stop p fuel _ hbase
  | append_singleton ds x ih =>
    have e1 : base ++ (ds ++ [x]).map docItem ++ [docItem r]
        = (base ++ ds.map docItem) ++ [docItem x, docItem r] := by simp
    have e2 : opsBase ++ List.replicate (ds ++ [x]).length (⟨L.fop, L.prio⟩ : filter_op_i)
        = (opsBase ++ List.replicate ds.length ⟨L.fop, L.prio⟩) ++ [⟨L.fop, L.prio⟩] := by
      simp [List.replicate_succ']
    rw [List.length_append, List.length_singleton] at hfuel
    obtain ⟨fuel, rfl⟩ : ∃ f, fuel = f + 1 := ⟨fuel - 1, by omega⟩
    rw [e1, e2, unwindLoop_step p fuel _ _ _ hp, unwind_conn]
    simp only [List.foldr_append, List.foldr_cons, List.foldr_nil]
    exact ih (connDoc L x r) fuel (by omega)

/-! ## Lemmas: the run of the engine over a well-formed expression -/

theorem scanStep_operator {w : List Char} {t : filter_op_type} {p : Int}
    (hw : isOperator w = some t) (hp : getPriority t = some p) (ft : FilterTranslator) :
    scanStep w ft
      = match unwindLoop p ft.operatorStack.Count ft with
        | .fail f ft1 => .fail f ft1
        | .ok _ ft1 => .ok () ⟨ft1.outputStack, ft1.operatorStack.Push ⟨t, p⟩⟩ := by
  unfold scanStep new_filter_op_i
  rw [hw]
  simp only [hp]
  by_cases hc : ft.operatorStack.Count > 0
  · rw [if_pos hc]
  · rw [if_neg hc]
    have hnil : ft.operatorStack.items = [] := by
      unfold Stack.Count at hc
      exact List.length_eq_zero.mp (by omega)
    rw [unwindLoop_stop p _ ft (by simp [hnil])]

theorem runWords_cons_ok {w : List Char} {ft ft1 : FilterTranslator}
    (h : scanStep w ft = .ok () ft1) (ws : List (List Char)) :
    runWords (w :: ws) ft = runWords ws ft1 := by
  simp only [runWords, h]

/-- The three words of a comparison are pushed without any reduction when no
operator on the stack has a priority below 1. -/
theorem runWords_cmp (c : Cmp) (hc : c.WF) (ws : List (List Char))
    (outs : List filter_out_i) (ops : List filter_op_i) (hops : ∀ top ∈ ops, ¬ (1 : Int) > top.p) :
    runWords (c.words ++ ws) ⟨⟨outs⟩, ⟨ops⟩⟩
      = runWords ws ⟨⟨outs ++ [operandItem c.F, operandItem c.v]⟩,
          ⟨ops ++ [⟨c.op.fop, 1⟩]⟩⟩ := by
  obtain ⟨⟨_, hF, _⟩, ⟨_, hv⟩⟩ := hc
  simp only [Cmp.words, List.cons_append, List.nil_append]
  rw [runWords_cons_ok (scanStep_operand hF outs _),
    runWords_cons_ok (scanStep_push (isOperator_cmp c.op) (getPriority_cmp c.op) _ ops hops),
    runWords_cons_ok (scanStep_operand hv _ _)]
  simp

theorem prio_replicate_or_and (a b : Nat) (p : Int) (hp : p ≤ 2) :
    ∀ top ∈ List.replicate a (⟨Conn.OR.fop, Conn.OR.prio⟩ : filter_op_i)
        ++ List.replicate b ⟨Conn.AND.fop, Conn.AND.prio⟩, ¬ p > top.p := by
  intro top htop
  rcases List.mem_append.mp htop with h | h
  · rw [(List.mem_replicate.mp h).2]
    simp only [Conn.prio]
    omega
  · rw [(List.mem_replicate.mp h).2]
    simp only [Conn.prio]
    omega

theorem flush_invariant (G Dd : List D) (c : Cmp) (hc : c.WF) :
    flush ⟨⟨(G ++ Dd).map docItem ++ [operandItem c.F, operandItem c.v]⟩,
        ⟨List.replicate G.length ⟨Conn.OR.fop, Conn.OR.prio⟩
          ++ List.replicate Dd.length ⟨Conn.AND.fop, Conn.AND.prio⟩ ++ [⟨c.op.fop, 1⟩]⟩⟩
      = .ok (nestRight .OR (G ++ [nestRight .AND (Dd ++ [c.doc])])) ⟨⟨[]⟩, ⟨[]⟩⟩ := by
  have hcount : (Stack.mk (List.replicate G.length (⟨Conn.OR.fop, Conn.OR.prio⟩ : filter_op_i)
      ++ List.replicate Dd.length ⟨Conn.AND.fop, Conn.AND.prio⟩ ++ [⟨c.op.fop, 1⟩])).Count
      = 1 + (Dd.length + G.length) := by
    simp [Stack.Count]
    omega
  have h3 := flushLoop_chain .OR [] [] G (nestRight .AND (Dd ++ [c.doc]))
  simp only [List.nil_append] at h3
  have h1 : flushLoop 1
      ⟨⟨(G ++ Dd).map docItem ++ [operandItem c.F, operandItem c.v]⟩,
        ⟨List.replicate G.length ⟨Conn.OR.fop, Conn.OR.prio⟩
          ++ List.replicate Dd.length ⟨Conn.AND.fop, Conn.AND.prio⟩ ++ [⟨c.op.fop, 1⟩]⟩⟩
      = .ok () ⟨⟨G.map docItem ++ Dd.map docItem ++ [docItem c.doc]⟩,
          ⟨List.replicate G.length ⟨Conn.OR.fop, Conn.OR.prio⟩
            ++ List.replicate Dd.length ⟨Conn.AND.fop, Conn.AND.prio⟩⟩⟩ := by
    simp only [flushLoop, unwind_cmp c hc.1.2.2, List.map_append]
  have hfl : flushLoop (1 + (Dd.length + G.length))
      ⟨⟨(G ++ Dd).map docItem ++ [operandItem c.F, operandItem c.v]⟩,
        ⟨List.replicate G.length ⟨Conn.OR.fop, Conn.OR.prio⟩
          ++ List.replicate Dd.length ⟨Conn.AND.fop, Conn.AND.prio⟩ ++ [⟨c.op.fop, 1⟩]⟩⟩
      = .ok () ⟨⟨[docItem (nestRight .OR (G ++ [nestRight .AND (Dd ++ [c.doc])]))]⟩, ⟨[]⟩⟩ := by
    rw [flushLoop_add, h1]
    simp only
    rw [flushLoop_add, flushLoop_chain .AND (G.map docItem) _ Dd c.doc]
    simp only
    rw [nestRight_concat, nestRight_concat]
    rw [nestRight_concat] at h3
    exact h3
  unfold flush
  simp only [hcount, hfl]
  simp [Stack.Count, Stack.Pop, docItem]


theorem scanStep_and_invariant (G Dd : List D) (c : Cmp) (hc : c.WF) :
    scanStep Conn.AND.keyword
        ⟨⟨(G ++ Dd).map docItem ++ [operandItem c.F, operandItem c.v]⟩,
         ⟨List.replicate G.length ⟨Conn.OR.fop, Conn.OR.prio⟩
           ++ List.replicate Dd.length ⟨Conn.AND.fop, Conn.AND.prio⟩ ++ [⟨c.op.fop, 1⟩]⟩⟩
      = .ok () ⟨⟨(G ++ (Dd ++ [c.doc])).map docItem⟩,
          ⟨List.replicate G.length ⟨Conn.OR.fop, Conn.OR.prio⟩
            ++ List.replicate (Dd ++ [c.doc]).length ⟨Conn.AND.fop, Conn.AND.prio⟩⟩⟩ := by
  rw [scanStep_operator (isOperator_conn .AND) (getPriority_conn .AND)]
  have hcount : (Stack.mk (List.replicate G.length (⟨Conn.OR.fop, Conn.OR.prio⟩ : filter_op_i)
      ++ List.replicate Dd.length ⟨Conn.AND.fop, Conn.AND.prio⟩ ++ [⟨c.op.fop, 1⟩])).Count
      = (G.length + Dd.length) + 1 := by
    simp [Stack.Count, Nat.add_assoc]
  simp only [hcount]
  rw [unwindLoop_step _ _ _ _ _ (by simp [Conn.prio]), unwind_cmp c hc.1.2.2]
  simp only
  rw [unwindLoop_stop _ _ _ (prio_replicate_or_and _ _ _ (by simp [Conn.prio]))]
  simp [List.replicate_succ']

theorem scanStep_or_invariant (G Dd : List D) (c : Cmp) (hc : c.WF) :
    scanStep Conn.OR.keyword
        ⟨⟨(G ++ Dd).map docItem ++ [operandItem c.F, operandItem c.v]⟩,
         ⟨List.replicate G.length ⟨Conn.OR.fop, Conn.OR.prio⟩
           ++ List.replicate Dd.length ⟨Conn.AND.fop, Conn.AND.prio⟩ ++ [⟨c.op.fop, 1⟩]⟩⟩
      = .ok () ⟨⟨((G ++ [nestRight .AND (Dd ++ [c.doc])]) ++ []).map docItem⟩,
          ⟨List.replicate (G ++ [nestRight .AND (Dd ++ [c.doc])]).length
              ⟨Conn.OR.fop, Conn.OR.prio⟩
            ++ List.replicate ([] : List D).length ⟨Conn.AND.fop, Conn.AND.prio⟩⟩⟩ := by
  rw [scanStep_operator (isOperator_conn .OR) (getPriority_conn .OR)]
  have hcount : (Stack.mk (List.replicate G.length (⟨Conn.OR.fop, Conn.OR.prio⟩ : filter_op_i)
      ++ List.replicate Dd.length ⟨Conn.AND.fop, Conn.AND.prio⟩ ++ [⟨c.op.fop, 1⟩])).Count
      = (G.length + Dd.length) + 1 := by
    simp [Stack.Count, Nat.add_assoc]
  have hbase : ∀ top ∈ List.replicate G.length (⟨Conn.OR.fop, Conn.OR.prio⟩ : filter_op_i),
      ¬ Conn.OR.prio > top.p := by
    intro top htop
    rw [(List.mem_replicate.mp htop).2]
    simp
  simp only [hcount]
  rw [unwindLoop_step _ _ _ _ _ (by simp [Conn.prio]), unwind_cmp c hc.1.2.2]
  simp only [List.map_append]
  rw [unwindLoop_chain .AND Conn.OR.prio (by simp [Conn.prio]) (G.map docItem) _ hbase Dd c.doc
    _ (by omega), ← nestRight_concat]
  simp [List.replicate_succ']

/-- The invariant of the scan over a well-formed expression: when the three
words of comparison `c` have just been pushed, the operand stack holds the
documents `G` of the finished groups and the documents `Dd` of the current
group, and the operator stack holds one `OR` per finished group, one `AND` per
document of the current group and the comparison operator. -/
theorem runWords_tail (rest : List (Conn × Cmp)) (hrest : ∀ q ∈ rest, q.2.WF)
    (G Dd : List D) (c : Cmp) (hc : c.WF) (g : List Cmp) (gs : List (List Cmp))
    (hg : groupsAtOr c rest = g :: gs) :
    runWords (tailWords rest)
        ⟨⟨(G ++ Dd).map docItem ++ [operandItem c.F, operandItem c.v]⟩,
         ⟨List.replicate G.length ⟨Conn.OR.fop, Conn.OR.prio⟩
           ++ List.replicate Dd.length ⟨Conn.AND.fop, Conn.AND.prio⟩ ++ [⟨c.op.fop, 1⟩]⟩⟩
      = .ok (nestRight .OR (G ++ nestRight .AND (Dd ++ g.map Cmp.doc)
              :: gs.map (fun g => nestRight .AND (g.map Cmp.doc))))
          ⟨⟨[]⟩, ⟨[]⟩⟩ := by
  induction rest generalizing G Dd c g gs with
  | nil =>
    simp only [groupsAtOr, List.cons.injEq] at hg
    obtain ⟨rfl, rfl⟩ := hg
    simp only [tailWords, runWords, List.map_cons, List.map_nil]
    exact flush_invariant G Dd c hc
  | cons q rest ih =>
    obtain ⟨L, c1⟩ := q
    have hc1 : c1.WF := hrest (L, c1) (by simp)
    have hrest1 : ∀ q ∈ rest, q.2.WF := fun q hq => hrest q (by simp [hq])
    obtain ⟨g1, gs1, hg1⟩ : ∃ g1 gs1, groupsAtOr c1 rest = g1 :: gs1 := by
      cases rest with
      | nil => exact ⟨_, _, rfl⟩
      | cons q2 rest2 =>
        obtain ⟨L2, c2⟩ := q2
        cases L2 with
        | OR => exact ⟨_, _, rfl⟩
        | AND =>
          simp only [groupsAtOr]
          split <;> exact ⟨_, _, rfl⟩
    simp only [tailWords]
    cases L with
    | AND =>
      simp only [groupsAtOr, hg1, List.cons.injEq] at hg
      obtain ⟨rfl, rfl⟩ := hg
      rw [runWords_cons_ok (scanStep_and_invariant G Dd c hc),
        runWords_cmp c1 hc1 _ _ _ (prio_replicate_or_and _ _ 1 (by omega)),
        ih hrest1 G (Dd ++ [c.doc]) c1 hc1 g1 gs1 hg1]
      simp
    | OR =>
      simp only [groupsAtOr, hg1, List.cons.injEq] at hg
      obtain ⟨rfl, rfl⟩ := hg
      rw [runWords_cons_ok (scanStep_or_invariant G Dd c hc),
        runWords_cmp c1 hc1 _ _ _ (prio_replicate_or_and _ _ 1 (by omega)),
        ih hrest1 (G ++ [nestRight .AND (Dd ++ [c.doc])]) [] c1 hc1 g1 gs1 hg1]
      simp

/-- The run of the engine over the words of a well-formed expression, from
empty stacks, returns the reference precedence parse and leaves the stacks
empty. -/
theorem runWords_exprWords (c : Cmp) (rest : List (Conn × Cmp)) (hc : c.WF)
    (hrest : ∀ q ∈ rest, q.2.WF) :
    runWords (exprWords c rest) NewFilterTranslator
      = .ok (referenceParse c rest) NewFilterTranslator := by
  obtain ⟨g, gs, hg⟩ : ∃ g gs, groupsAtOr c rest = g :: gs := by
    cases rest with
    | nil => exact ⟨_, _, rfl⟩
    | cons q2 rest2 =>
      obtain ⟨L2, c2⟩ := q2
      cases L2 with
      | OR => exact ⟨_, _, rfl⟩
      | AND =>
        simp only [groupsAtOr]
        split <;> exact ⟨_, _, rfl⟩
  have h := runWords_tail rest hrest [] [] c hc g gs hg
  unfold exprWords NewFilterTranslator NewStack
  rw [runWords_cmp c hc _ _ _ (by simp)]
  simp only [List.append_nil, List.map_nil, List.nil_append, List.length_nil,
    List.replicate_zero] at h
  simp only [List.nil_append]
  rw [h, referenceParse, hg]
  rfl

theorem isToken_exprWords (c : Cmp) (rest : List (Conn × Cmp)) (hc : c.WF)
    (hrest : ∀ q ∈ rest, q.2.WF) : ∀ w ∈ exprWords c rest, IsToken w := by
  have hwords : ∀ c : Cmp, c.WF → ∀ w ∈ c.words, IsToken w := by
    intro c hc w hw
    simp only [Cmp.words, List.mem_cons, List.mem_singleton, List.not_mem_nil, or_false] at hw
    rcases hw with rfl | rfl | rfl
    · exact hc.1.1
    · exact isToken_cmp c.op
    · exact hc.2.1
  have htail : ∀ rest : List (Conn × Cmp), (∀ q ∈ rest, q.2.WF) →
      ∀ w ∈ tailWords rest, IsToken w := by
    intro rest
    induction rest with
    | nil => intro _ w hw; simp [tailWords] at hw
    | cons q rest ih =>
      intro hr w hw
      obtain ⟨L, c1⟩ := q
      simp only [tailWords, List.mem_cons, List.mem_append] at hw
      rcases hw with rfl | hw | hw
      · exact isToken_conn L
      · exact hwords c1 (hr (L, c1) (by simp)) w hw
      · exact ih (fun q hq => hr q (by simp [hq])) w hw
  intro w hw
  simp only [exprWords, List.mem_append] at hw
  rcases hw with hw | hw
  · exact hwords c hc w hw
  · exact htail rest hrest w hw

/-- The translator on the text of a well-formed expression, tokens separated by
single spaces. -/
theorem TranslateToMongo_expr (c : Cmp) (rest : List (Conn × Cmp)) (hc : c.WF)
    (hrest : ∀ q ∈ rest, q.2.WF) :
    TranslateToMongo NewFilterTranslator (joinWords (exprWords c rest))
      = .ok (referenceParse c rest) NewFilterTranslator := by
  rw [TranslateToMongo_joinWords _ _ (isToken_exprWords c rest hc hrest),
    runWords_exprWords c rest hc hrest]

theorem joinWords_three (F kw v : List Char) :
    joinWords [F, kw, v] = F ++ (' ' :: kw ++ [' ']) ++ v := by
  simp [joinWords]

/-- The translator on the text of one well-formed comparison. -/
theorem TranslateToMongo_single (c : Cmp) (hc : c.WF) :
    TranslateToMongo NewFilterTranslator (c.F ++ (' ' :: c.op.keyword ++ [' ']) ++ c.v)
      = .ok c.doc NewFilterTranslator := by
  have h := TranslateToMongo_expr c [] hc (by simp)
  simp only [exprWords, tailWords, List.append_nil, Cmp.words, joinWords_three] at h
  exact h

theorem groupsAtOr_and_chain (c : Cmp) (cs : List Cmp) :
    groupsAtOr c (cs.map (fun x => (Conn.AND, x))) = [c :: cs] := by
  induction cs generalizing c with
  | nil => rfl
  | cons c2 cs ih => simp only [List.map_cons, groupsAtOr, ih]

theorem groupsAtOr_or_chain (c : Cmp) (cs : List Cmp) :
    groupsAtOr c (cs.map (fun x => (Conn.OR, x))) = (c :: cs).map (fun x => [x]) := by
  induction cs generalizing c with
  | nil => rfl
  | cons c2 cs ih => simp only [List.map_cons, groupsAtOr, ih]

/-- The reference parse of a chain joined by one logical keyword is the
right-nested combination of the comparison documents. -/
theorem referenceParse_chain (L : Conn) (c : Cmp) (cs : List Cmp) :
    referenceParse c (cs.map (fun x => (L, x))) = nestRight L ((c :: cs).map Cmp.doc) := by
  cases L with
  | AND =>
    rw [referenceParse, groupsAtOr_and_chain]
    rfl
  | OR =>
    rw [referenceParse, groupsAtOr_or_chain, List.map_map]
    rfl

/-! ## Lemmas: what a successful run does to the two stack counts -/

theorem unwind_ok {ft ft1 : FilterTranslator} {u : Unit} (h : unwind ft = .ok u ft1) :
    ft1.outputStack.Count + 1 = ft.outputStack.Count
      ∧ ft1.operatorStack.Count + 1 = ft.operatorStack.Count := by
  unfold unwind at h
  simp only at h
  split at h
  · cases h
  · rename_i hg
    split at h
    · split at h
      · cases h
        simp only [Stack.Count, Stack.Push, Stack.Pop] at hg ⊢
        have h1 : ft.operatorStack.items.length ≠ 0 := by omega
        have h2 : ft.outputStack.items.length ≠ 0 := by omega
        simp only [h1, h2, if_false, List.length_take, List.length_append,
          List.length_singleton]
        split <;> simp <;> omega
      · cases h
    · cases h

theorem unwind_ok_two {ft ft1 : FilterTranslator} {u : Unit} (h : unwind ft = .ok u ft1) :
    2 ≤ ft.outputStack.Count := by
  unfold unwind at h
  simp only at h
  split at h
  · cases h
  · rename_i hg
    omega

theorem unwindLoop_ok (p : Int) (fuel : Nat) {ft ft1 : FilterTranslator} {u : Unit}
    (h : unwindLoop p fuel ft = .ok u ft1) :
    ∃ k, ft1.outputStack.Count + k = ft.outputStack.Count
      ∧ ft1.operatorStack.Count + k = ft.operatorStack.Count := by
  induction fuel generalizing ft with
  | zero =>
    simp only [unwindLoop] at h
    split at h
    · cases h
    · cases h
      exact ⟨0, rfl, rfl⟩
  | succ fuel ih =>
    simp only [unwindLoop] at h
    split at h
    · cases hu : unwind ft with
      | fail f ft2 => rw [hu] at h; cases h
      | ok u2 ft2 =>
        rw [hu] at h
        obtain ⟨k, hk1, hk2⟩ := ih h
        obtain ⟨h1, h2⟩ := unwind_ok hu
        exact ⟨k + 1, by omega, by omega⟩
    · cases h
      exact ⟨0, rfl, rfl⟩

theorem flushLoop_ok (n : Nat) {ft ft1 : FilterTranslator} {u : Unit}
    (h : flushLoop n ft = .ok u ft1) :
    ft1.outputStack.Count + n = ft.outputStack.Count
      ∧ ft1.operatorStack.Count + n = ft.operatorStack.Count := by
  induction n generalizing ft with
  | zero =>
    simp only [flushLoop] at h
    cases h
    exact ⟨rfl, rfl⟩
  | succ n ih =>
    simp only [flushLoop] at h
    cases hu : unwind ft with
    | fail f ft2 => rw [hu] at h; cases h
    | ok u2 ft2 =>
      rw [hu] at h
      obtain ⟨hk1, hk2⟩ := ih h
      obtain ⟨h1, h2⟩ := unwind_ok hu
      exact ⟨by omega, by omega⟩

/-- A successful `flush` started with one operand more than operators and
leaves both stacks empty. -/
theorem flush_ok {ft ft1 : FilterTranslator} {d : D} (h : flush ft = .ok d ft1) :
    ft.outputStack.Count = ft.operatorStack.Count + 1 ∧ ft1 = ⟨⟨[]⟩, ⟨[]⟩⟩ := by
  unfold flush at h
  cases hl : flushLoop ft.operatorStack.Count ft with
  | fail f ft2 => rw [hl] at h; cases h
  | ok u ft2 =>
    rw [hl] at h
    obtain ⟨h1, h2⟩ := flushLoop_ok _ hl
    obtain ⟨⟨outs⟩, ⟨ops⟩⟩ := ft2
    simp only [Stack.Count] at h h1 h2
    have hops : ops = [] := List.length_eq_zero.mp (by omega)
    subst hops
    split at h
    · cases h
    · rename_i hc
      cases outs with
      | nil => simp [Stack.Pop] at h
      | cons a outs =>
        have houts : outs = [] := List.length_eq_zero.mp (by
          simp only [List.length_cons] at hc; omega)
        subst houts
        simp only [List.length_cons, List.length_nil] at h1
        refine ⟨by simp only [Stack.Count]; omega, ?_⟩
        have hpop : (Stack.mk [a]).Pop = (some a, ⟨[]⟩) := rfl
        simp only [hpop] at h
        split at h
        · cases h
          rfl
        · cases h

theorem scanStep_ok {w : List Char} {ft ft1 : FilterTranslator} {u : Unit}
    (h : scanStep w ft = .ok u ft1) :
    (isOperator w = none ∧ ft1.outputStack.Count = ft.outputStack.Count + 1
        ∧ ft1.operatorStack.Count = ft.operatorStack.Count)
    ∨ ((isOperator w).isSome = true ∧ 1 ≤ ft1.operatorStack.Count
        ∧ ∃ k, ft1.outputStack.Count + k = ft.outputStack.Count
          ∧ ft1.operatorStack.Count + k = ft.operatorStack.Count + 1) := by
  unfold scanStep at h
  split at h
  · rename_i fopt hw
    right
    refine ⟨by simp [hw], ?_⟩
    split at h
    · cases h
    · simp only at h
      split at h
      · cases h
      · rename_i u2 ft2 hr
        cases h
        have hk : ∃ k, ft2.outputStack.Count + k = ft.outputStack.Count
            ∧ ft2.operatorStack.Count + k = ft.operatorStack.Count := by
          split at hr
          · exact unwindLoop_ok _ _ hr
          · cases hr
            exact ⟨0, rfl, rfl⟩
        obtain ⟨k, hk1, hk2⟩ := hk
        refine ⟨by simp [Stack.Count, Stack.Push], k, hk1, ?_⟩
        simp only [Stack.Count, Stack.Push, List.length_append, List.length_singleton] at hk2 ⊢
        omega
  · rename_i hw
    left
    refine ⟨hw, ?_⟩
    split at h <;> cases h <;> simp [Stack.Count, Stack.Push]

/-- A run that returns a document saw exactly one operand word more than
operator words, counting what was on the stacks at the start. -/
theorem runWords_ok (ws : List (List Char)) {ft ft1 : FilterTranslator} {d : D}
    (h : runWords ws ft = .ok d ft1) :
    countOperands ws + ft.outputStack.Count
        = countOperators ws + ft.operatorStack.Count + 1
      ∧ ft1 = ⟨⟨[]⟩, ⟨[]⟩⟩ := by
  induction ws generalizing ft with
  | nil =>
    simp only [runWords] at h
    obtain ⟨h1, h2⟩ := flush_ok h
    simp only [countOperands, countOperators, List.countP_nil]
    exact ⟨by omega, h2⟩
  | cons w ws ih =>
    simp only [runWords] at h
    cases hs : scanStep w ft with
    | fail f ft2 => rw [hs] at h; cases h
    | ok u ft2 =>
      rw [hs] at h
      obtain ⟨hcnt, hft⟩ := ih h
      refine ⟨?_, hft⟩
      simp only [countOperands, countOperators] at hcnt ⊢
      rcases scanStep_ok hs with ⟨hw, h1, h2⟩ | ⟨hw, _, k, h1, h2⟩
      · simp only [List.countP_cons, hw, Option.isNone_none, Option.isSome_none, if_true,
          Bool.false_eq_true, if_false]
        omega
      · have hw2 : (isOperator w).isNone = false := by
          cases hiw : isOperator w <;> simp [hiw] at hw ⊢
        simp only [List.countP_cons, hw, hw2, if_true, Bool.false_eq_true, if_false]
        omega

/-! ## Lemmas: counting the words of an input by its shape -/

theorem countOperands_cons (w : List Char) (ws : List (List Char)) :
    countOperands (w :: ws)
      = countOperands ws + (if isOperator w = none then 1 else 0) := by
  unfold countOperands
  rw [List.countP_cons]
  cases isOperator w <;> simp

theorem countOperators_cons (w : List Char) (ws : List (List Char)) :
    countOperators (w :: ws)
      = countOperators ws + (if isOperator w = none then 0 else 1) := by
  unfold countOperators
  rw [List.countP_cons]
  cases isOperator w <;> simp

/-- When the last word is an operand and no two operator words are adjacent,
the operators do not outnumber the operands, and there is one operand more when
the first word is an operand as well. -/
theorem count_of_alternating (w : List Char) (ws : List (List Char))
    (hch : List.Chain' (fun a b => isOperator a = none ∨ isOperator b = none) (w :: ws))
    (hlast : ∀ x ∈ (w :: ws).getLast?, isOperator x = none) :
    (isOperator w = none → countOperators (w :: ws) + 1 ≤ countOperands (w :: ws))
      ∧ countOperators (w :: ws) ≤ countOperands (w :: ws) := by
  induction ws generalizing w with
  | nil =>
    have hw : isOperator w = none := hlast w (by simp)
    simp [countOperands_cons, countOperators_cons, hw, countOperands, countOperators]
  | cons w1 ws ih =>
    rw [List.chain'_cons] at hch
    rw [List.getLast?_cons_cons] at hlast
    obtain ⟨ih1, ih2⟩ := ih w1 hch.2 hlast
    rw [countOperands_cons w, countOperators_cons w]
    by_cases hw : isOperator w = none
    · simp only [hw, if_true]
      omega
    · have hw1 : isOperator w1 = none := by
        rcases hch.1 with h | h
        · exact absurd h hw
        · exact h
      have := ih1 hw1
      simp only [hw, if_false]
      exact ⟨fun h => h.elim, by omega⟩

/-- With two adjacent operand words in addition, the operands outnumber the
operators by two when the first word is an operand. -/
theorem count_of_adjacent (a b : List Char) (post : List (List Char))
    (ha : isOperator a = none) (hb : isOperator b = none) (pre : List (List Char))
    (hch : List.Chain' (fun a b => isOperator a = none ∨ isOperator b = none)
      (pre ++ a :: b :: post))
    (hlast : ∀ x ∈ (pre ++ a :: b :: post).getLast?, isOperator x = none) :
    ((∀ x ∈ (pre ++ a :: b :: post).head?, isOperator x = none) →
        countOperators (pre ++ a :: b :: post) + 2 ≤ countOperands (pre ++ a :: b :: post))
      ∧ countOperators (pre ++ a :: b :: post) + 1 ≤ countOperands (pre ++ a :: b :: post) := by
  induction pre with
  | nil =>
    simp only [List.nil_append] at hch hlast ⊢
    rw [List.chain'_cons] at hch
    rw [List.getLast?_cons_cons] at hlast
    have h1 := (count_of_alternating b post hch.2 hlast).1 hb
    rw [countOperands_cons a, countOperators_cons a]
    simp only [ha, if_true]
    exact ⟨fun _ => by omega, by omega⟩
  | cons w pre ih =>
    simp only [List.cons_append] at hch hlast ⊢
    have hne : pre ++ a :: b :: post ≠ [] := by simp
    obtain ⟨x, xs, hx⟩ := List.exists_cons_of_ne_nil hne
    rw [hx] at hch hlast ih ⊢
    rw [List.chain'_cons] at hch
    rw [List.getLast?_cons_cons] at hlast
    obtain ⟨ih1, ih2⟩ := ih hch.2 hlast
    rw [countOperands_cons w, countOperators_cons w]
    by_cases hw : isOperator w = none
    · simp only [hw, if_true]
      exact ⟨fun _ => by omega, by omega⟩
    · have hx1 : isOperator x = none := by
        rcases hch.1 with h | h
        · exact absurd h hw
        · exact h
      have := ih1 (by intro y hy; simp only [List.head?_cons, Option.mem_def,
        Option.some.injEq] at hy; subst hy; exact hx1)
      simp only [hw, if_false]
      refine ⟨fun h => ?_, by omega⟩
      exact absurd (h w (by simp)) hw

theorem count_of_shape {ws : List (List Char)} (hadj : AdjacentOperands ws)
    (hbetween : OperatorsBetweenOperands ws) :
    countOperators ws + 2 ≤ countOperands ws := by
  obtain ⟨pre, a, b, post, rfl, ha, hb⟩ := hadj
  obtain ⟨hhead, hlast, hch⟩ := hbetween
  exact (count_of_adjacent a b post ha hb pre hch hlast).1 hhead

/-! ## Lemmas: the ways in which a call can fail -/

theorem Stack.Pop_isSome {T : Type} (s : Stack T) (h : s.items.length ≠ 0) :
    ∃ x, s.Pop.1 = some x := by
  obtain ⟨items⟩ := s
  simp only [Stack.Pop, h, if_false]
  cases hl : items.getLast? with
  | none =>
    rw [List.getLast?_eq_none_iff] at hl
    simp [hl] at h
  | some x => exact ⟨x, rfl⟩

theorem Stack.Pop_length {T : Type} (s : Stack T) :
    s.Pop.2.items.length = s.items.length - 1 := by
  obtain ⟨items⟩ := s
  unfold Stack.Pop
  split
  · rename_i h
    simp only at h
    simp [h]
  · simp

theorem fopToBSON_fail {fop : filter_op_i} {x y : filter_out_i} {f : Failure}
    (h : fopToBSON fop x y = .error f) : f.ErrorOrAssert := by
  unfold fopToBSON at h
  split at h
  · cases h
    trivial
  · split at h
    · split at h <;> cases h
      trivial
    · split at h <;> cases h
      trivial

theorem unwind_fail {ft ft1 : FilterTranslator} {f : Failure}
    (h : unwind ft = .fail f ft1) : f.ErrorOrAssert := by
  unfold unwind at h
  simp only at h
  split at h
  · cases h
    trivial
  · rename_i hg
    simp only [Stack.Count] at hg
    obtain ⟨fop, hfop⟩ := Stack.Pop_isSome ft.operatorStack (by omega)
    obtain ⟨yv, hyv⟩ := Stack.Pop_isSome ft.outputStack (by omega)
    obtain ⟨xv, hxv⟩ := Stack.Pop_isSome ft.outputStack.Pop.2 (by
      rw [Stack.Pop_length]; omega)
    rw [hfop, hxv, hyv] at h
    simp only at h
    split at h
    · cases h
    · rename_i f2 hf
      cases h
      exact fopToBSON_fail hf

theorem unwindLoop_fail (p : Int) (fuel : Nat) {ft ft1 : FilterTranslator} {f : Failure}
    (hfuel : ft.operatorStack.Count ≤ fuel) (h : unwindLoop p fuel ft = .fail f ft1) :
    f.ErrorOrAssert := by
  induction fuel generalizing ft with
  | zero =>
    have hnil : ft.operatorStack.items = [] := by
      unfold Stack.Count at hfuel
      exact List.length_eq_zero.mp (by omega)
    rw [unwindLoop_stop p 0 ft (by simp [hnil])] at h
    cases h
  | succ fuel ih =>
    simp only [unwindLoop] at h
    split at h
    · cases hu : unwind ft with
      | fail f2 ft2 =>
        rw [hu] at h
        cases h
        exact unwind_fail hu
      | ok u2 ft2 =>
        rw [hu] at h
        have := (unwind_ok hu).2
        exact ih (by omega) h
    · cases h

theorem scanStep_fail {w : List Char} {ft ft1 : FilterTranslator} {f : Failure}
    (h : scanStep w ft = .fail f ft1) : f.ErrorOrAssert := by
  unfold scanStep at h
  split at h
  · split at h
    · cases h
      trivial
    · simp only at h
      split at h
      · rename_i f2 ft2 hr
        cases h
        split at hr
        · exact unwindLoop_fail _ _ (Nat.le_refl _) hr
        · cases hr
      · cases h
  · split at h <;> cases h

theorem flushLoop_fail (n : Nat) {ft ft1 : FilterTranslator} {f : Failure}
    (h : flushLoop n ft = .fail f ft1) : f.ErrorOrAssert := by
  induction n generalizing ft with
  | zero => simp only [flushLoop] at h; cases h
  | succ n ih =>
    simp only [flushLoop] at h
    cases hu : unwind ft with
    | fail f2 ft2 =>
      rw [hu] at h
      cases h
      exact unwind_fail hu
    | ok u2 ft2 =>
      rw [hu] at h
      exact ih h

theorem flushLoop_ok_pos (n : Nat) (hn : 1 ≤ n) {ft ft1 : FilterTranslator} {u : Unit}
    (h : flushLoop n ft = .ok u ft1) : 1 ≤ ft1.outputStack.Count := by
  induction n generalizing ft with
  | zero => omega
  | succ n ih =>
    simp only [flushLoop] at h
    cases hu : unwind ft with
    | fail f2 ft2 => rw [hu] at h; cases h
    | ok u2 ft2 =>
      rw [hu] at h
      cases n with
      | zero =>
        simp only [flushLoop] at h
        cases h
        have h1 := (unwind_ok hu).1
        have h2 := unwind_ok_two hu
        omega
      | succ n => exact ih (by omega) h

/-- The only abort of `flush` that is not a failed type assertion is the nil
dereference, and it needs both stacks empty at the start of `flush`. -/
theorem flush_fail {ft ft1 : FilterTranslator} {f : Failure} (h : flush ft = .fail f ft1) :
    f.ErrorOrAssert
      ∨ (f = .panic .nilDeref ∧ ft.outputStack.Count = 0 ∧ ft.operatorStack.Count = 0) := by
  unfold flush at h
  cases hl : flushLoop ft.operatorStack.Count ft with
  | fail f2 ft2 =>
    rw [hl] at h
    cases h
    exact Or.inl (flushLoop_fail _ hl)
  | ok u ft2 =>
    rw [hl] at h
    simp only at h
    split at h
    · cases h
      exact Or.inl trivial
    · split at h
      · rename_i hpop
        cases h
        right
        have hzero : ft2.outputStack.items.length = 0 := by
          by_contra hne
          obtain ⟨x, hx⟩ := Stack.Pop_isSome ft2.outputStack hne
          rw [hx] at hpop
          cases hpop
        have hn : ft.operatorStack.Count = 0 := by
          by_contra hne
          have := flushLoop_ok_pos _ (by omega) hl
          simp only [Stack.Count] at this
          omega
        have h1 := (flushLoop_ok _ hl).1
        simp only [Stack.Count] at h1 hn
        exact ⟨rfl, by simp only [Stack.Count]; omega, hn⟩
      · split at h
        · cases h
        · cases h
          exact Or.inl trivial

/-- A run fails with a returned error or a failed type assertion, except for the
nil dereference of a run over no word at all on empty stacks. -/
theorem runWords_fail (ws : List (List Char)) {ft ft1 : FilterTranslator} {f : Failure}
    (h : runWords ws ft = .fail f ft1) :
    f.ErrorOrAssert
      ∨ (f = .panic .nilDeref ∧ ws = [] ∧ ft.outputStack.Count = 0
          ∧ ft.operatorStack.Count = 0) := by
  induction ws generalizing ft with
  | nil =>
    rcases flush_fail h with h1 | ⟨h1, h2, h3⟩
    · exact Or.inl h1
    · exact Or.inr ⟨h1, rfl, h2, h3⟩
  | cons w ws ih =>
    simp only [runWords] at h
    cases hs : scanStep w ft with
    | fail f2 ft2 =>
      rw [hs] at h
      cases h
      exact Or.inl (scanStep_fail hs)
    | ok u ft2 =>
      rw [hs] at h
      rcases ih h with h1 | ⟨_, _, h2, h3⟩
      · exact Or.inl h1
      · exfalso
        rcases scanStep_ok hs with ⟨_, h4, _⟩ | ⟨_, h4, _⟩ <;> omega

/-- The translator never stops for lack of fuel: every outcome of the model is
an outcome of the Go code. -/
theorem TranslateToMongo_ne_fuel (ft ft1 : FilterTranslator) (s : List Char) :
    TranslateToMongo ft s ≠ .fail .fuel ft1 := by
  rw [TranslateToMongo_eq_runWords]
  intro h
  rcases runWords_fail _ h with h1 | ⟨h1, _⟩
  · exact h1
  · cases h1

theorem scanWords_ne_nil {s : List Char} (h : s ≠ []) : scanWords s ≠ [] := by
  unfold scanWords
  obtain ⟨n, hn⟩ : ∃ n, s.length = n + 1 :=
    ⟨s.length - 1, by have := List.length_pos.mpr h; omega⟩
  rw [hn, scanWordsAux_succ n h]
  simp

/-! ## Lemmas: the operator table -/

theorem isOperator_some {w : List Char} {t : filter_op_type} (h : isOperator w = some t) :
    (w = "OR".toList ∧ t = FOP_OR) ∨ (w = "AND".toList ∧ t = FOP_AND)
      ∨ (w = "EQ".toList ∧ t = FOP_EQ) ∨ (w = "GT".toList ∧ t = FOP_EQ)
      ∨ (w = "GTE".toList ∧ t = FOP_GTE) ∨ (w = "LT".toList ∧ t = FOP_LT)
      ∨ (w = "LTE".toList ∧ t = FOP_LTE) ∨ (w = "LE".toList ∧ t = FOP_LE) := by
  unfold isOperator fop_table at h
  simp only [mapGet] at h
  split_ifs at h with h1 h2 h3 h4 h5 h6 h7 h8 <;> simp only [Option.some.injEq] at h
  · exact Or.inl ⟨h1, h.symm⟩
  · exact Or.inr (Or.inl ⟨h2, h.symm⟩)
  · exact Or.inr (Or.inr (Or.inl ⟨h3, h.symm⟩))
  · exact Or.inr (Or.inr (Or.inr (Or.inl ⟨h4, h.symm⟩)))
  · exact Or.inr (Or.inr (Or.inr (Or.inr (Or.inl ⟨h5, h.symm⟩))))
  · exact Or.inr (Or.inr (Or.inr (Or.inr (Or.inr (Or.inl ⟨h6, h.symm⟩)))))
  · exact Or.inr (Or.inr (Or.inr (Or.inr (Or.inr (Or.inr (Or.inl ⟨h7, h.symm⟩))))))
  · exact Or.inr (Or.inr (Or.inr (Or.inr (Or.inr (Or.inr (Or.inr ⟨h8, h.symm⟩))))))

theorem isOperator_some_known {w : List Char} {t : filter_op_type}
    (h : isOperator w = some t) :
    getPriority t ≠ none ∧ mapGet fop_translation_tb_mongo t ≠ none := by
  rcases isOperator_some h with ⟨_, rfl⟩ | ⟨_, rfl⟩ | ⟨_, rfl⟩ | ⟨_, rfl⟩ | ⟨_, rfl⟩ | ⟨_, rfl⟩
    | ⟨_, rfl⟩ | ⟨_, rfl⟩ <;> decide

/-! ## Lemmas: the operator stack only shrinks in `unwind` -/

theorem Stack.Pop_shrink {T : Type} (s : Stack T) : s.Pop.2.items <+: s.items := by
  unfold Stack.Pop
  split
  · exact List.prefix_refl _
  · exact List.take_prefix _ _

theorem unwind_ops_shrink (ft : FilterTranslator) :
    (unwind ft).state.operatorStack.items <+: ft.operatorStack.items := by
  unfold unwind
  simp only
  split
  · exact List.prefix_refl _
  · split
    · split <;> exact Stack.Pop_shrink _
    · exact Stack.Pop_shrink _

theorem unwindLoop_ops_shrink (p : Int) (fuel : Nat) (ft : FilterTranslator) :
    (unwindLoop p fuel ft).state.operatorStack.items <+: ft.operatorStack.items := by
  induction fuel generalizing ft with
  | zero =>
    simp only [unwindLoop]
    split <;> exact List.prefix_refl _
  | succ fuel ih =>
    simp only [unwindLoop]
    split
    · have h1 := unwind_ops_shrink ft
      cases hu : unwind ft with
      | fail f ft2 =>
        rw [hu] at h1
        exact h1
      | ok u ft2 =>
        rw [hu] at h1
        exact (ih ft2).trans h1
    · exact List.prefix_refl _

theorem flushLoop_ops_shrink (n : Nat) (ft : FilterTranslator) :
    (flushLoop n ft).state.operatorStack.items <+: ft.operatorStack.items := by
  induction n generalizing ft with
  | zero => exact List.prefix_refl _
  | succ n ih =>
    simp only [flushLoop]
    have h1 := unwind_ops_shrink ft
    cases hu : unwind ft with
    | fail f ft2 =>
      rw [hu] at h1
      exact h1
    | ok u ft2 =>
      rw [hu] at h1
      exact (ih ft2).trans h1

theorem flush_ops_shrink (ft : FilterTranslator) :
    (flush ft).state.operatorStack.items <+: ft.operatorStack.items := by
  unfold flush
  have h1 := flushLoop_ops_shrink ft.operatorStack.Count ft
  cases hl : flushLoop ft.operatorStack.Count ft with
  | fail f ft2 =>
    rw [hl] at h1
    exact h1
  | ok u ft2 =>
    rw [hl] at h1
    simp only
    split
    · exact h1
    · split
      · exact h1
      · split <;> exact h1

theorem OpsKnown_of_shrink {ft ft1 : FilterTranslator} (h : OpsKnown ft)
    (hp : ft1.operatorStack.items <+: ft.operatorStack.items) : OpsKnown ft1 :=
  fun op hop => h op (hp.mem hop)

theorem OpsSorted_of_shrink {ft ft1 : FilterTranslator} (h : OpsSorted ft)
    (hp : ft1.operatorStack.items <+: ft.operatorStack.items) : OpsSorted ft1 :=
  List.Pairwise.sublist hp.sublist h

theorem Stack.Pop_mem {T : Type} {s : Stack T} {x : T} (h : s.Pop.1 = some x) :
    x ∈ s.items := by
  unfold Stack.Pop at h
  split at h
  · cases h
  · exact List.mem_of_getLast?_eq_some h

/-! ## Lemmas: the state in which the inner loop is left -/

theorem unwindLoop_ok_cond (p : Int) (fuel : Nat) {ft ft1 : FilterTranslator} {u : Unit}
    (h : unwindLoop p fuel ft = .ok u ft1) : unwindCond p ft1 = false := by
  induction fuel generalizing ft with
  | zero =>
    simp only [unwindLoop] at h
    split at h
    · cases h
    · rename_i hc
      cases h
      simpa using hc
  | succ fuel ih =>
    simp only [unwindLoop] at h
    split at h
    · cases hu : unwind ft with
      | fail f ft2 => rw [hu] at h; cases h
      | ok u2 ft2 =>
        rw [hu] at h
        exact ih h
    · rename_i hc
      cases h
      simpa using hc

theorem unwindCond_false_iff (p : Int) (ft : FilterTranslator) :
    unwindCond p ft = false ↔ ∀ top, ft.operatorStack.Peek = some top → ¬ p > top.p := by
  unfold unwindCond
  cases ft.operatorStack.Peek with
  | none => simp
  | some top => simp

/-- The operator stack after the loop body on one word: what is left of the old
stack after the unwinds, and on top of it the new operator when the word is an
operator and the loop body returned; the new operator has at most the priority
of the operator below it. -/
theorem scanStep_ops (w : List Char) (ft : FilterTranslator) :
    (scanStep w ft).state.operatorStack.items <+: ft.operatorStack.items
    ∨ ∃ (l : List filter_op_i) (t : filter_op_type) (p : Int),
        l <+: ft.operatorStack.items ∧ isOperator w = some t ∧ getPriority t = some p
        ∧ (∀ top, (Stack.mk l).Peek = some top → ¬ p > top.p)
        ∧ (scanStep w ft).state.operatorStack.items = l ++ [⟨t, p⟩] := by
  cases hw : isOperator w with
  | none =>
    left
    unfold scanStep
    rw [hw]
    simp only
    split <;> exact List.prefix_refl _
  | some t =>
    cases hp : getPriority t with
    | none => exact absurd hp (isOperator_some_known hw).1
    | some p =>
      rw [scanStep_operator hw hp]
      have hpre := unwindLoop_ops_shrink p ft.operatorStack.Count ft
      cases hl : unwindLoop p ft.operatorStack.Count ft with
      | fail f ft2 =>
        rw [hl] at hpre
        exact Or.inl hpre
      | ok u ft2 =>
        rw [hl] at hpre
        right
        refine ⟨ft2.operatorStack.items, t, p, hpre, rfl, hp, ?_, rfl⟩
        exact (unwindCond_false_iff p ft2).mp (unwindLoop_ok_cond p _ hl)

theorem scanStep_known (w : List Char) {ft : FilterTranslator} (h : OpsKnown ft) :
    OpsKnown (scanStep w ft).state := by
  rcases scanStep_ops w ft with hpre | ⟨l, t, p, hpre, hw, _, _, hitems⟩
  · exact OpsKnown_of_shrink h hpre
  · intro op hop
    rw [hitems, List.mem_append, List.mem_singleton] at hop
    rcases hop with hop | rfl
    · exact h op (hpre.mem hop)
    · exact (isOperator_some_known hw).2

theorem pairwise_ge_top {l : List filter_op_i} {top : filter_op_i}
    (hl : l.Pairwise (fun below above => above.p ≤ below.p))
    (htop : (Stack.mk l).Peek = some top) : ∀ a ∈ l, top.p ≤ a.p := by
  unfold Stack.Peek at htop
  split at htop
  · cases htop
  · obtain ⟨l1, rfl⟩ := List.getLast?_eq_some_iff.mp htop
    intro a ha
    rw [List.mem_append, List.mem_singleton] at ha
    rcases ha with ha | rfl
    · exact (List.pairwise_append.mp hl).2.2 a ha top (by simp)
    · exact Int.le_refl _

theorem scanStep_sorted (w : List Char) {ft : FilterTranslator} (h : OpsSorted ft) :
    OpsSorted (scanStep w ft).state := by
  rcases scanStep_ops w ft with hpre | ⟨l, t, p, hpre, _, _, htop, hitems⟩
  · exact OpsSorted_of_shrink h hpre
  · unfold OpsSorted
    rw [hitems]
    have hl : l.Pairwise (fun below above => above.p ≤ below.p) :=
      List.Pairwise.sublist hpre.sublist h
    refine List.pairwise_append.mpr ⟨hl, List.pairwise_singleton _ _, ?_⟩
    intro a ha b hb
    rw [List.mem_singleton] at hb
    subst hb
    cases hpk : (Stack.mk l).Peek with
    | none =>
      unfold Stack.Peek at hpk
      split at hpk
      · rename_i h0
        simp only at h0
        rw [List.length_eq_zero.mp h0] at ha
        cases ha
      · have hnil : l = [] := List.getLast?_eq_none_iff.mp hpk
        rw [hnil] at ha
        cases ha
    | some top =>
      have h1 := htop top hpk
      have h2 := pairwise_ge_top hl hpk a ha
      simp only
      omega

/-! ## Lemmas: which failures a call can end in -/

theorem fopToBSON_engine {fop : filter_op_i} {x y : filter_out_i} {f : Failure}
    (h : fopToBSON fop x y = .error f) :
    f.FromEngine ∧ (mapGet fop_translation_tb_mongo fop.t ≠ none → ¬ f.IsNoMongoOp) := by
  unfold fopToBSON at h
  split at h
  · rename_i hnone
    cases h
    exact ⟨trivial, fun hk => absurd hnone hk⟩
  · split at h
    · split at h <;> cases h
      exact ⟨trivial, fun _ ⟨_, ht⟩ => by cases ht⟩
    · split at h <;> cases h
      exact ⟨trivial, fun _ ⟨_, ht⟩ => by cases ht⟩

theorem unwind_engine {ft ft1 : FilterTranslator} {f : Failure}
    (h : unwind ft = .fail f ft1) :
    f.FromEngine ∧ (OpsKnown ft → ¬ f.IsNoMongoOp) := by
  unfold unwind at h
  simp only at h
  split at h
  · cases h
    exact ⟨trivial, fun _ ⟨_, ht⟩ => by cases ht⟩
  · rename_i hg
    simp only [Stack.Count] at hg
    obtain ⟨fop, hfop⟩ := Stack.Pop_isSome ft.operatorStack (by omega)
    obtain ⟨yv, hyv⟩ := Stack.Pop_isSome ft.outputStack (by omega)
    obtain ⟨xv, hxv⟩ := Stack.Pop_isSome ft.outputStack.Pop.2 (by
      rw [Stack.Pop_length]; omega)
    rw [hfop, hxv, hyv] at h
    simp only at h
    split at h
    · cases h
    · rename_i f2 hf
      cases h
      obtain ⟨h1, h2⟩ := fopToBSON_engine hf
      exact ⟨h1, fun hk => h2 (hk fop (Stack.Pop_mem hfop))⟩

theorem unwindLoop_engine (p : Int) (fuel : Nat) {ft ft1 : FilterTranslator} {f : Failure}
    (hfuel : ft.operatorStack.Count ≤ fuel) (h : unwindLoop p fuel ft = .fail f ft1) :
    f.FromEngine ∧ (OpsKnown ft → ¬ f.IsNoMongoOp) := by
  induction fuel generalizing ft with
  | zero =>
    have hnil : ft.operatorStack.items = [] := by
      unfold Stack.Count at hfuel
      exact List.length_eq_zero.mp (by omega)
    rw [unwindLoop_stop p 0 ft (by simp [hnil])] at h
    cases h
  | succ fuel ih =>
    simp only [unwindLoop] at h
    split at h
    · have hpre := unwind_ops_shrink ft
      cases hu : unwind ft with
      | fail f2 ft2 =>
        rw [hu] at h
        cases h
        exact unwind_engine hu
      | ok u2 ft2 =>
        rw [hu] at h hpre
        have := (unwind_ok hu).2
        obtain ⟨h1, h2⟩ := ih (by omega) h
        exact ⟨h1, fun hk => h2 (OpsKnown_of_shrink hk hpre)⟩
    · cases h

theorem scanStep_engine {w : List Char} {ft ft1 : FilterTranslator} {f : Failure}
    (h : scanStep w ft = .fail f ft1) :
    f.FromEngine ∧ (OpsKnown ft → ¬ f.IsNoMongoOp) := by
  cases hw : isOperator w with
  | none =>
    unfold scanStep at h
    rw [hw] at h
    simp only at h
    split at h <;> cases h
  | some t =>
    cases hp : getPriority t with
    | none => exact absurd hp (isOperator_some_known hw).1
    | some p =>
      rw [scanStep_operator hw hp] at h
      split at h
      · rename_i f2 ft2 hl
        cases h
        exact unwindLoop_engine p _ (Nat.le_refl _) hl
      · cases h

theorem flushLoop_engine (n : Nat) {ft ft1 : FilterTranslator} {f : Failure}
    (h : flushLoop n ft = .fail f ft1) :
    f.FromEngine ∧ (OpsKnown ft → ¬ f.IsNoMongoOp) := by
  induction n generalizing ft with
  | zero => simp only [flushLoop] at h; cases h
  | succ n ih =>
    simp only [flushLoop] at h
    have hpre := unwind_ops_shrink ft
    cases hu : unwind ft with
    | fail f2 ft2 =>
      rw [hu] at h
      cases h
      exact unwind_engine hu
    | ok u2 ft2 =>
      rw [hu] at h hpre
      obtain ⟨h1, h2⟩ := ih h
      exact ⟨h1, fun hk => h2 (OpsKnown_of_shrink hk hpre)⟩

theorem flush_engine {ft ft1 : FilterTranslator} {f : Failure} (h : flush ft = .fail f ft1) :
    f.FromEngine ∧ (OpsKnown ft → ¬ f.IsNoMongoOp) := by
  unfold flush at h
  cases hl : flushLoop ft.operatorStack.Count ft with
  | fail f2 ft2 =>
    rw [hl] at h
    cases h
    exact flushLoop_engine _ hl
  | ok u ft2 =>
    rw [hl] at h
    simp only at h
    split at h
    · cases h
      exact ⟨trivial, fun _ ⟨_, ht⟩ => by cases ht⟩
    · split at h
      · cases h
        exact ⟨trivial, fun _ ⟨_, ht⟩ => by cases ht⟩
      · split at h <;> cases h
        exact ⟨trivial, fun _ ⟨_, ht⟩ => by cases ht⟩

theorem runWords_engine (ws : List (List Char)) {ft ft1 : FilterTranslator} {f : Failure}
    (h : runWords ws ft = .fail f ft1) :
    f.FromEngine ∧ (OpsKnown ft → ¬ f.IsNoMongoOp) := by
  induction ws generalizing ft with
  | nil => exact flush_engine h
  | cons w ws ih =>
    simp only [runWords] at h
    have hk := @scanStep_known w ft
    cases hs : scanStep w ft with
    | fail f2 ft2 =>
      rw [hs] at h
      cases h
      exact scanStep_engine hs
    | ok u ft2 =>
      rw [hs] at h hk
      obtain ⟨h1, h2⟩ := ih h
      exact ⟨h1, fun hkn => h2 (hk hkn)⟩

/-- Every failure of a call comes from the engine below the scan loop; it is
the missing-symbol error only when the operator stack held an operator kind
without a Mongo symbol before the call. -/
theorem TranslateToMongo_engine {ft ft1 : FilterTranslator} {s : List Char} {f : Failure}
    (h : TranslateToMongo ft s = .fail f ft1) :
    f.FromEngine ∧ (OpsKnown ft → ¬ f.IsNoMongoOp) := by
  rw [TranslateToMongo_eq_runWords] at h
  exact runWords_engine _ h

/-! ## Lemmas: the order of priorities on the operator stack -/

theorem unwind_ok_ops {ft ft1 : FilterTranslator} {u : Unit} (h : unwind ft = .ok u ft1) :
    ∃ top, ft.operatorStack.Peek = some top
      ∧ ft.operatorStack.items = ft1.operatorStack.items ++ [top] := by
  obtain ⟨outs, ⟨items⟩⟩ := ft
  have hcnt := (unwind_ok h).2
  have hpre := unwind_ops_shrink ⟨outs, ⟨items⟩⟩
  rw [h] at hpre
  simp only [Result.state] at hpre
  obtain ⟨r, hr⟩ := hpre
  simp only [Stack.Count] at hcnt
  have hlen : r.length = 1 := by
    have := congrArg List.length hr
    simp only [List.length_append] at this
    omega
  obtain ⟨top, rfl⟩ := List.length_eq_one.mp hlen
  refine ⟨top, ?_, hr.symm⟩
  simp only [← hr, Stack.Peek_concat]

theorem unwindLoop_ok_removed (q : Int) (fuel : Nat) {ft ft1 : FilterTranslator} {u : Unit}
    (h : unwindLoop q fuel ft = .ok u ft1) :
    ∃ removed, ft.operatorStack.items = ft1.operatorStack.items ++ removed
      ∧ ∀ op ∈ removed, op.p < q := by
  induction fuel generalizing ft with
  | zero =>
    simp only [unwindLoop] at h
    split at h
    · cases h
    · cases h
      exact ⟨[], by simp, by simp⟩
  | succ fuel ih =>
    simp only [unwindLoop] at h
    split at h
    · rename_i hc
      cases hu : unwind ft with
      | fail f ft2 => rw [hu] at h; cases h
      | ok u2 ft2 =>
        rw [hu] at h
        obtain ⟨removed, hr1, hr2⟩ := ih h
        obtain ⟨top, htop, hitems⟩ := unwind_ok_ops hu
        refine ⟨removed ++ [top], by rw [hitems, hr1, List.append_assoc], ?_⟩
        intro op hop
        rw [List.mem_append, List.mem_singleton] at hop
        rcases hop with hop | rfl
        · exact hr2 op hop
        · simp only [unwindCond, htop, decide_eq_true_eq] at hc
          omega
    · cases h
      exact ⟨[], by simp, by simp⟩

/-- An incoming operator that is pushed has unwound exactly the operators on
top that had a strictly lower priority. -/
theorem scanStep_ok_operator {w : List Char} {t : filter_op_type} {q : Int}
    (hw : isOperator w = some t) (hq : getPriority t = some q)
    {ft ft1 : FilterTranslator} {u : Unit} (h : scanStep w ft = .ok u ft1) :
    ∃ kept removed, ft.operatorStack.items = kept ++ removed
      ∧ ft1.operatorStack.items = kept ++ [⟨t, q⟩]
      ∧ (∀ op ∈ removed, op.p < q)
      ∧ (∀ top, (Stack.mk kept).Peek = some top → q ≤ top.p) := by
  rw [scanStep_operator hw hq] at h
  split at h
  · cases h
  · rename_i u2 ft2 hl
    cases h
    obtain ⟨removed, hr1, hr2⟩ := unwindLoop_ok_removed q _ hl
    refine ⟨ft2.operatorStack.items, removed, hr1, rfl, hr2, ?_⟩
    intro top htop
    have := (unwindCond_false_iff q ft2).mp (unwindLoop_ok_cond q _ hl) top htop
    omega

/-- An operator of equal or lower priority than the top of the operator stack,
or one that meets an empty operator stack, is pushed without any unwind. -/
theorem scanStep_no_unwind {w : List Char} {t : filter_op_type} {q : Int}
    (hw : isOperator w = some t) (hq : getPriority t = some q) (ft : FilterTranslator)
    (htop : ∀ top, ft.operatorStack.Peek = some top → q ≤ top.p) :
    scanStep w ft = .ok () ⟨ft.outputStack, ft.operatorStack.Push ⟨t, q⟩⟩ := by
  rw [scanStep_operator hw hq]
  have hc : unwindCond q ft = false :=
    (unwindCond_false_iff q ft).mpr (fun top h => by have := htop top h; omega)
  have hl : unwindLoop q ft.operatorStack.Count ft = .ok () ft := by
    cases ft.operatorStack.Count <;> simp [unwindLoop, hc]
  rw [hl]

theorem runSteps_sorted (ws : List (List Char)) {ft : FilterTranslator} (h : OpsSorted ft) :
    OpsSorted (runSteps ws ft).state := by
  induction ws generalizing ft with
  | nil => exact h
  | cons w ws ih =>
    simp only [runSteps]
    have hs := scanStep_sorted w h
    cases hstep : scanStep w ft with
    | fail f ft1 =>
      rw [hstep] at hs
      exact hs
    | ok u ft1 =>
      rw [hstep] at hs
      exact ih hs

theorem runWords_eq_runSteps (ws : List (List Char)) (ft : FilterTranslator) :
    runWords ws ft
      = match runSteps ws ft with
        | .fail f ft1 => .fail f ft1
        | .ok _ ft1 => flush ft1 := by
  induction ws generalizing ft with
  | nil => rfl
  | cons w ws ih =>
    simp only [runWords, runSteps]
    cases scanStep w ft with
    | fail f ft1 => rfl
    | ok u ft1 => exact ih ft1

theorem runWords_sorted (ws : List (List Char)) {ft : FilterTranslator} (h : OpsSorted ft) :
    OpsSorted (runWords ws ft).state := by
  rw [runWords_eq_runSteps]
  have hs := runSteps_sorted ws h
  cases hr : runSteps ws ft with
  | fail f ft1 =>
    rw [hr] at hs
    exact hs
  | ok u ft1 =>
    rw [hr] at hs
    exact OpsSorted_of_shrink hs (flush_ops_shrink ft1)

theorem OpsSorted_new : OpsSorted NewFilterTranslator := List.Pairwise.nil

/-! ## Lemmas: calls one after the other on the same translator -/

theorem TranslateToMongo_ok_state {ft ft1 : FilterTranslator} {s : List Char} {d : D}
    (h : TranslateToMongo ft s = .ok d ft1) : ft1 = NewFilterTranslator := by
  rw [TranslateToMongo_eq_runWords] at h
  exact (runWords_ok _ h).2

theorem afterCalls_of_allReturned (calls : List (List Char))
    (h : AllReturned NewFilterTranslator calls) :
    afterCalls NewFilterTranslator calls = NewFilterTranslator := by
  induction calls with
  | nil => rfl
  | cons s rest ih =>
    obtain ⟨⟨d, ft1, hok⟩, hrest⟩ := h
    have hst : (TranslateToMongo NewFilterTranslator s).state = NewFilterTranslator := by
      rw [hok]
      exact TranslateToMongo_ok_state hok
    simp only [afterCalls]
    rw [hst] at hrest ⊢
    exact ih hrest

/-! ## Lemmas: the three parts of a string the tokenizer sees -/

theorem take_of_eq_append (a b c s : List Char) (h : a ++ (b ++ c) = s) :
    s.take (a.length + b.length) = a ++ b ∧ s.drop a.length = b ++ c := by
  subst h
  rw [← List.append_assoc, ← List.length_append, List.take_left, List.append_assoc,
    List.drop_left]
  exact ⟨rfl, rfl⟩

theorem leadingSpaces_eq_replicate (s : List Char) :
    leadingSpaces s = List.replicate (leadingSpaces s).length ' ' := by
  rw [List.eq_replicate_iff]
  refine ⟨rfl, ?_⟩
  intro c hc
  have := List.mem_takeWhile_imp hc
  simpa using this

theorem space_not_mem_firstWord (s : List Char) : ' ' ∉ firstWord s := by
  intro h
  have := List.mem_takeWhile_imp h
  simp at this

theorem afterWord_nil_or_space (s : List Char) :
    afterWord s = [] ∨ ∃ t, afterWord s = ' ' :: t := by
  unfold afterWord
  generalize s.dropWhile (fun c => decide (c = ' ')) = r
  induction r with
  | nil => exact Or.inl rfl
  | cons c r ih =>
    by_cases hc : c = ' '
    · subst hc
      exact Or.inr ⟨r, by simp⟩
    · simpa [hc] using ih

theorem firstWord_eq_nil_iff (s : List Char) : firstWord s = [] ↔ ∀ c ∈ s, c = ' ' := by
  induction s with
  | nil => simp [firstWord]
  | cons c cs ih =>
    by_cases hc : c = ' '
    · subst hc
      rw [firstWord_space_cons, ih]
      simp
    · constructor
      · intro h
        simp [firstWord, hc] at h
      · intro h
        exact absurd (h c (by simp)) hc

theorem head?_firstWord_append_afterWord (s : List Char) :
    (firstWord s ++ afterWord s).head? ≠ some ' ' := by
  cases hf : firstWord s with
  | nil =>
    rw [afterWord_eq_nil_of_firstWord_eq_nil hf]
    simp
  | cons c w =>
    have hsp := space_not_mem_firstWord s
    rw [hf] at hsp
    simp only [List.cons_append, List.head?_cons, ne_eq, Option.some.injEq]
    intro e
    exact hsp (by simp [e])

/-! ## Lemmas: the two cases of `unwind` -/

theorem fopToBSON_ne_mismatch (fop : filter_op_i) (x y : filter_out_i) (a b : Nat) :
    fopToBSON fop x y ≠ .error (.error (.mismatch a b)) := by
  unfold fopToBSON
  intro h
  split at h
  · cases h
  · split at h
    · split at h <;> cases h
    · split at h <;> cases h

theorem unwind_guard (ft : FilterTranslator)
    (h : ft.operatorStack.Count = 0 ∨ ft.outputStack.Count < 2) :
    unwind ft
      = .fail (.error (.mismatch ft.operatorStack.Count ft.outputStack.Count)) ft := by
  unfold unwind
  simp only
  rw [if_pos (by omega)]

theorem translator_of_counts (ft : FilterTranslator)
    (h : ¬ (ft.operatorStack.Count = 0 ∨ ft.outputStack.Count < 2)) :
    ∃ outs x y ops op, ft = ⟨⟨outs ++ [x, y]⟩, ⟨ops ++ [op]⟩⟩ := by
  obtain ⟨⟨outs⟩, ⟨ops⟩⟩ := ft
  simp only [Stack.Count] at h
  rcases List.eq_nil_or_concat ops with rfl | ⟨ops1, op, rfl⟩
  · simp at h
  · rcases List.eq_nil_or_concat outs with rfl | ⟨outs1, y, rfl⟩
    · simp at h
    · rcases List.eq_nil_or_concat outs1 with rfl | ⟨outs2, x, rfl⟩
      · simp at h
      · exact ⟨outs2, x, y, ops1, op, by simp⟩

/-! ## Lemmas: where the scan loop meets an empty word -/

theorem getLast?_of_all_spaces {r : List Char} (hne : r ≠ []) (h : ∀ c ∈ r, c = ' ') :
    r.getLast? = some ' ' := by
  rw [List.getLast?_eq_getLast _ hne, h _ (List.getLast_mem hne)]

theorem nil_mem_scanWordsAux (fuel : Nat) (r : List Char)
    (h : [] ∈ scanWordsAux fuel r) : r.getLast? = some ' ' := by
  induction fuel generalizing r with
  | zero => simp [scanWordsAux] at h
  | succ fuel ih =>
    by_cases hr : r = []
    · subst hr
      simp [scanWordsAux] at h
    · rw [scanWordsAux_succ fuel hr, List.mem_cons] at h
      rcases h with h | h
      · exact getLast?_of_all_spaces hr ((firstWord_eq_nil_iff r).mp h.symm)
      · have hlast := ih _ h
        have hparts := leadingSpaces_firstWord_afterWord r
        rw [← hparts, ← List.append_assoc, List.getLast?_append, hlast]
        rfl

/-- The scan loop meets an empty word only on an input that ends with a space. -/
theorem nil_mem_scanWords {s : List Char} (h : [] ∈ scanWords s) :
    s.getLast? = some ' ' :=
  nil_mem_scanWordsAux _ s h

/-! ## The claims -/

/-- The symbol of `CmpOp.symbol` is the one the tables of the source give. -/
theorem mapGet_symbol (op : CmpOp) :
    (isOperator op.keyword).bind (mapGet fop_translation_tb_mongo) = some op.symbol := by
  cases op <;> decide

/-- The translation of `F1 op1 v1 AND F2 op2 v2` for field tokens, value tokens
and any two comparison keywords, with the symbols the code emits. -/
theorem TranslateToMongo_and_of_two (F1 F2 v1 v2 : List Char) (op1 op2 : CmpOp)
    (hF1 : IsField F1) (hF2 : IsField F2) (hv1 : IsValue v1) (hv2 : IsValue v2) :
    TranslateToMongo NewFilterTranslator
        (F1 ++ " ".toList ++ op1.keyword ++ " ".toList ++ v1 ++ " AND ".toList
          ++ F2 ++ " ".toList ++ op2.keyword ++ " ".toList ++ v2)
      = .ok [("$and".toList,
              .A [.ptrD [(F1, .D [(op1.symbol, operandVal v1)])],
                  .ptrD [(F2, .D [(op2.symbol, operandVal v2)])]])]
          NewFilterTranslator := by
  have h := TranslateToMongo_expr ⟨F1, op1, v1⟩ [(.AND, ⟨F2, op2, v2⟩)] ⟨hF1, hv1⟩
    (by intro q hq; simp only [List.mem_singleton] at hq; subst hq; exact ⟨hF2, hv2⟩)
  have e : F1 ++ " ".toList ++ op1.keyword ++ " ".toList ++ v1 ++ " AND ".toList
        ++ F2 ++ " ".toList ++ op2.keyword ++ " ".toList ++ v2
      = joinWords (exprWords ⟨F1, op1, v1⟩ [(.AND, ⟨F2, op2, v2⟩)]) := by
    simp only [joinWords, exprWords, tailWords, Cmp.words, List.append_assoc, List.cons_append,
      List.nil_append, List.append_nil]
    rfl
  rw [e, h]
  rfl

/-- C1 (the code emits `$eq` where the Mongo symbol of the keyword is `$gt`):
the Mongo symbol of `GT` in the source is `MOP_GT`, `$gt`, the entry of
`fop_translation_tb_mongo` for `FOP_GT`, but `fop_table` gives `GT` the kind
`FOP_EQ`; so `A GT 1 AND B EQ 2` on a fresh translator returns
`{"$and":[{"A":{"$eq":1}},{"B":{"$eq":2}}]}` and not
`{"$and":[{"A":{"$gt":1}},{"B":{"$eq":2}}]}`.  The input of the test of the
repository, `Title LE /Test/ AND Total EQ 1`, returns the document of the
claim. -/
theorem C1_gt_emitted_as_eq :
    MOP_GT = "$gt".toList
    ∧ mapGet fop_translation_tb_mongo FOP_GT = some MOP_GT
    ∧ isOperator "GT".toList = some FOP_EQ
    ∧ TranslateToMongo NewFilterTranslator "A GT 1 AND B EQ 2".toList
      = .ok [("$and".toList,
              .A [.ptrD [("A".toList, .D [("$eq".toList, .int 1)])],
                  .ptrD [("B".toList, .D [("$eq".toList, .int 2)])]])]
          NewFilterTranslator
    ∧ TranslateToMongo NewFilterTranslator "A GT 1 AND B EQ 2".toList
      ≠ .ok [("$and".toList,
              .A [.ptrD [("A".toList, .D [(MOP_GT, .int 1)])],
                  .ptrD [("B".toList, .D [("$eq".toList, .int 2)])]])]
          NewFilterTranslator
    ∧ TranslateToMongo NewFilterTranslator "Title LE /Test/ AND Total EQ 1".toList
      = .ok [("$and".toList,
              .A [.ptrD [("Title".toList, .D [("$regex".toList, .str "/Test/".toList)])],
                  .ptrD [("Total".toList, .D [("$eq".toList, .int 1)])]])]
          NewFilterTranslator := by
  decide

/-- C2: for every well-formed input `c1 L1 c2 ... L(n-1) cn` (`n >= 1`, every
`ci` a comparison with a field token and a value token, every `Lj` the keyword
`AND` or `OR`, tokens separated by single spaces) the translation on a fresh
translator succeeds and is the reference precedence parse: the comparisons are
split into groups at the `OR` tokens, each group is the right-nested `$and` of
its comparison documents and the groups are combined by right-nested `$or`.  So
`c1 OR c2 AND c3` is `{$or:[c1,{$and:[c2,c3]}]}` and `c1 AND c2 OR c3` is
`{$or:[{$and:[c1,c2]},c3]}`. -/
theorem C2_precedence_parse (c : Cmp) (rest : List (Conn × Cmp)) (hc : c.WF)
    (hrest : ∀ q ∈ rest, q.2.WF) :
    TranslateToMongo NewFilterTranslator (joinWords (exprWords c rest))
        = .ok (referenceParse c rest) NewFilterTranslator
    ∧ (∀ c1 c2 c3 : Cmp, referenceParse c1 [(.OR, c2), (.AND, c3)]
        = [("$or".toList, .A [.ptrD c1.doc,
            .ptrD [("$and".toList, .A [.ptrD c2.doc, .ptrD c3.doc])]])])
    ∧ (∀ c1 c2 c3 : Cmp, referenceParse c1 [(.AND, c2), (.OR, c3)]
        = [("$or".toList, .A [.ptrD [("$and".toList, .A [.ptrD c1.doc, .ptrD c2.doc])],
            .ptrD c3.doc])]) :=
  ⟨TranslateToMongo_expr c rest hc hrest, fun _ _ _ => rfl, fun _ _ _ => rfl⟩

/-- Witness of C2 at `A EQ 1 OR B LT 2 AND C GTE x`: the result is
`{$or: [{A: {$eq: 1}}, {$and: [{B: {$lt: 2}}, {C: {$gte: "x"}}]}]}`. -/
theorem C2_precedence_parse_witness :
    Cmp.WF ⟨"A".toList, .EQ, "1".toList⟩
    ∧ (∀ q ∈ [(Conn.OR, (⟨"B".toList, .LT, "2".toList⟩ : Cmp)),
              (Conn.AND, (⟨"C".toList, .GTE, "x".toList⟩ : Cmp))], q.2.WF)
    ∧ TranslateToMongo NewFilterTranslator "A EQ 1 OR B LT 2 AND C GTE x".toList
      = .ok [("$or".toList,
              .A [.ptrD [("A".toList, .D [("$eq".toList, .int 1)])],
                  .ptrD [("$and".toList,
                    .A [.ptrD [("B".toList, .D [("$lt".toList, .int 2)])],
                        .ptrD [("C".toList, .D [("$gte".toList, .str "x".toList)])]])]])]
          NewFilterTranslator :=
  ⟨by decide, by decide,
    (C2_precedence_parse ⟨"A".toList, .EQ, "1".toList⟩
      [(.OR, ⟨"B".toList, .LT, "2".toList⟩), (.AND, ⟨"C".toList, .GTE, "x".toList⟩)]
      (by decide) (by decide)).1⟩

/-- C3: for a chain of `n >= 2` comparisons `c1 L c2 L ... L cn` joined by the
same logical keyword `L` (all `AND` or all `OR`), the translation on a fresh
translator is the right-leaning tree `{sym(L): [doc(c1), R]}` where `R` is the
translation of `c2 L ... L cn` (which is `doc(cn)` when one comparison is
left); in particular `A EQ 1 AND B EQ 2 AND C EQ 3` gives
`{"$and":[A-doc,{"$and":[B-doc,C-doc]}]}`, which is neither the flat
three-element array nor the left-nested tree. -/
theorem C3_same_keyword_chain (L : Conn) (c1 c2 : Cmp) (cs : List Cmp) (h1 : c1.WF)
    (h2 : c2.WF) (hcs : ∀ c ∈ cs, c.WF) :
    (∃ R : D,
      TranslateToMongo NewFilterTranslator
          (joinWords (exprWords c2 (cs.map (fun c => (L, c)))))
        = .ok R NewFilterTranslator
      ∧ TranslateToMongo NewFilterTranslator
          (joinWords (exprWords c1 ((c2 :: cs).map (fun c => (L, c)))))
        = .ok [(L.symbol, .A [.ptrD c1.doc, .ptrD R])] NewFilterTranslator
      ∧ (cs = [] → R = c2.doc))
    ∧ TranslateToMongo NewFilterTranslator "A EQ 1 AND B EQ 2 AND C EQ 3".toList
      = .ok [("$and".toList,
              .A [.ptrD [("A".toList, .D [("$eq".toList, .int 1)])],
                  .ptrD [("$and".toList,
                    .A [.ptrD [("B".toList, .D [("$eq".toList, .int 2)])],
                        .ptrD [("C".toList, .D [("$eq".toList, .int 3)])]])]])]
          NewFilterTranslator
    ∧ TranslateToMongo NewFilterTranslator "A EQ 1 AND B EQ 2 AND C EQ 3".toList
      ≠ .ok [("$and".toList,
              .A [.ptrD [("A".toList, .D [("$eq".toList, .int 1)])],
                  .ptrD [("B".toList, .D [("$eq".toList, .int 2)])],
                  .ptrD [("C".toList, .D [("$eq".toList, .int 3)])]])]
          NewFilterTranslator
    ∧ TranslateToMongo NewFilterTranslator "A EQ 1 AND B EQ 2 AND C EQ 3".toList
      ≠ .ok [("$and".toList,
              .A [.ptrD [("$and".toList,
                    .A [.ptrD [("A".toList, .D [("$eq".toList, .int 1)])],
                        .ptrD [("B".toList, .D [("$eq".toList, .int 2)])]])],
                  .ptrD [("C".toList, .D [("$eq".toList, .int 3)])]])]
          NewFilterTranslator := by
  have hmap : ∀ l : List Cmp, (∀ c ∈ l, c.WF) → ∀ q ∈ l.map (fun c => (L, c)), q.2.WF := by
    intro l hl q hq
    obtain ⟨c, hc, rfl⟩ := List.mem_map.mp hq
    exact hl c hc
  have hcs2 : ∀ c ∈ c2 :: cs, c.WF := by
    intro c hc
    rcases List.mem_cons.mp hc with rfl | hc
    · exact h2
    · exact hcs c hc
  refine ⟨⟨nestRight L ((c2 :: cs).map Cmp.doc), ?_, ?_, ?_⟩, by decide, by decide, by decide⟩
  · rw [TranslateToMongo_expr c2 _ h2 (hmap cs hcs), referenceParse_chain]
  · rw [TranslateToMongo_expr c1 _ h1 (hmap (c2 :: cs) hcs2), referenceParse_chain]
    rfl
  · rintro rfl
    rfl

/-- Witness of C3 at the chain `A EQ 1 OR B EQ 2 OR C EQ 3`. -/
theorem C3_same_keyword_chain_witness :
    Cmp.WF ⟨"A".toList, .EQ, "1".toList⟩ ∧ Cmp.WF ⟨"B".toList, .EQ, "2".toList⟩
    ∧ (∀ c ∈ [(⟨"C".toList, .EQ, "3".toList⟩ : Cmp)], c.WF)
    ∧ ∃ R : D,
      TranslateToMongo NewFilterTranslator "B EQ 2 OR C EQ 3".toList
        = .ok R NewFilterTranslator
      ∧ TranslateToMongo NewFilterTranslator "A EQ 1 OR B EQ 2 OR C EQ 3".toList
        = .ok [("$or".toList, .A [.ptrD [("A".toList, .D [("$eq".toList, .int 1)])],
            .ptrD R])] NewFilterTranslator :=
  ⟨by decide, by decide, by decide,
    match (C3_same_keyword_chain .OR ⟨"A".toList, .EQ, "1".toList⟩
      ⟨"B".toList, .EQ, "2".toList⟩ [⟨"C".toList, .EQ, "3".toList⟩]
      (by decide) (by decide) (by decide)).1 with
    | ⟨R, hR, hAll, _⟩ => ⟨R, hR, hAll⟩⟩


/-- C4: for a field token `F`, a value token `v` and each of the keywords `EQ`,
`GTE`, `LT`, `LTE`, `LE`, the translation of `F op v` on a fresh translator is
the single-key document `{F: {s: val(v)}}` with `s` the Mongo symbol of the
keyword: `$eq`, `$gte`, `$lt`, `$lte`, `$regex`. -/
theorem C4_comparison_document (F v : List Char) (hF : IsField F) (hv : IsValue v) :
    TranslateToMongo NewFilterTranslator (F ++ " EQ ".toList ++ v)
        = .ok [(F, .D [("$eq".toList, operandVal v)])] NewFilterTranslator
    ∧ TranslateToMongo NewFilterTranslator (F ++ " GTE ".toList ++ v)
        = .ok [(F, .D [("$gte".toList, operandVal v)])] NewFilterTranslator
    ∧ TranslateToMongo NewFilterTranslator (F ++ " LT ".toList ++ v)
        = .ok [(F, .D [("$lt".toList, operandVal v)])] NewFilterTranslator
    ∧ TranslateToMongo NewFilterTranslator (F ++ " LTE ".toList ++ v)
        = .ok [(F, .D [("$lte".toList, operandVal v)])] NewFilterTranslator
    ∧ TranslateToMongo NewFilterTranslator (F ++ " LE ".toList ++ v)
        = .ok [(F, .D [("$regex".toList, operandVal v)])] NewFilterTranslator :=
  ⟨TranslateToMongo_single ⟨F, .EQ, v⟩ ⟨hF, hv⟩,
   TranslateToMongo_single ⟨F, .GTE, v⟩ ⟨hF, hv⟩,
   TranslateToMongo_single ⟨F, .LT, v⟩ ⟨hF, hv⟩,
   TranslateToMongo_single ⟨F, .LTE, v⟩ ⟨hF, hv⟩,
   TranslateToMongo_single ⟨F, .LE, v⟩ ⟨hF, hv⟩⟩

/-- Witness of C4 at `Total` and `1`: the five documents `{Total: {s: 1}}`. -/
theorem C4_comparison_document_witness :
    IsField "Total".toList ∧ IsValue "1".toList
    ∧ TranslateToMongo NewFilterTranslator "Total EQ 1".toList
        = .ok [("Total".toList, .D [("$eq".toList, .int 1)])] NewFilterTranslator
    ∧ TranslateToMongo NewFilterTranslator "Total GTE 1".toList
        = .ok [("Total".toList, .D [("$gte".toList, .int 1)])] NewFilterTranslator
    ∧ TranslateToMongo NewFilterTranslator "Total LT 1".toList
        = .ok [("Total".toList, .D [("$lt".toList, .int 1)])] NewFilterTranslator
    ∧ TranslateToMongo NewFilterTranslator "Total LTE 1".toList
        = .ok [("Total".toList, .D [("$lte".toList, .int 1)])] NewFilterTranslator
    ∧ TranslateToMongo NewFilterTranslator "Total LE 1".toList
        = .ok [("Total".toList, .D [("$regex".toList, .int 1)])] NewFilterTranslator :=
  ⟨by decide, by decide,
    C4_comparison_document "Total".toList "1".toList (by decide) (by decide)⟩

/-- C5: a word that is not an operator keyword is pushed onto the operand stack
as an integer operand with value `n` when `strconv.Atoi` parses it to `n`, and
as a string operand equal to the word otherwise; so in `F EQ v` the emitted
comparison value is the integer `1` for `v = 1` and the strings `"Total"` and
`"/Test/"` for `v = Total` and `v = /Test/`. -/
theorem C5_operand_classification (w : List Char) (ft : FilterTranslator)
    (hw : isOperator w = none) (F : List Char) (hF : IsField F) :
    (∀ n : Int, Atoi w = some n →
        scanStep w ft = .ok () ⟨ft.outputStack.Push ⟨.int n, .NUM⟩, ft.operatorStack⟩)
    ∧ (Atoi w = none →
        scanStep w ft = .ok () ⟨ft.outputStack.Push ⟨.str w, .STR⟩, ft.operatorStack⟩)
    ∧ Atoi "1".toList = some 1 ∧ Atoi "Total".toList = none ∧ Atoi "/Test/".toList = none
    ∧ TranslateToMongo NewFilterTranslator (F ++ " EQ ".toList ++ "1".toList)
        = .ok [(F, .D [("$eq".toList, .int 1)])] NewFilterTranslator
    ∧ TranslateToMongo NewFilterTranslator (F ++ " EQ ".toList ++ "Total".toList)
        = .ok [(F, .D [("$eq".toList, .str "Total".toList)])] NewFilterTranslator
    ∧ TranslateToMongo NewFilterTranslator (F ++ " EQ ".toList ++ "/Test/".toList)
        = .ok [(F, .D [("$eq".toList, .str "/Test/".toList)])] NewFilterTranslator := by
  refine ⟨?_, ?_, by decide, by decide, by decide,
    TranslateToMongo_single ⟨F, .EQ, "1".toList⟩ ⟨hF, (by decide : IsValue "1".toList)⟩,
    TranslateToMongo_single ⟨F, .EQ, "Total".toList⟩
      ⟨hF, (by decide : IsValue "Total".toList)⟩,
    TranslateToMongo_single ⟨F, .EQ, "/Test/".toList⟩
      ⟨hF, (by decide : IsValue "/Test/".toList)⟩⟩
  · intro n hn
    unfold scanStep
    rw [hw]
    simp only [hn]
  · intro hn
    unfold scanStep
    rw [hw]
    simp only [hn]

/-- Witness of C5: the word `-42` on a fresh translator, and the field `Title`. -/
theorem C5_operand_classification_witness :
    isOperator "-42".toList = none ∧ IsField "Title".toList
    ∧ scanStep "-42".toList NewFilterTranslator
        = .ok () ⟨⟨[⟨.int (-42), .NUM⟩]⟩, ⟨[]⟩⟩
    ∧ TranslateToMongo NewFilterTranslator "Title EQ /Test/".toList
        = .ok [("Title".toList, .D [("$eq".toList, .str "/Test/".toList)])]
            NewFilterTranslator :=
  ⟨by decide, by decide,
    (C5_operand_classification "-42".toList NewFilterTranslator (by decide) "Title".toList
      (by decide)).1 (-42) (by decide),
    (C5_operand_classification "-42".toList NewFilterTranslator (by decide) "Title".toList
      (by decide)).2.2.2.2.2.2.2⟩

/-- C6: the keyword `GT` resolves to the equals operator kind, `isOperator("GT")`
is `FOP_EQ`; for a field token `F` and a value token `v` the translation of
`F GT v` is the translation of `F EQ v`, the document `{F: {"$eq": val(v)}}`,
and it is not `{F: {"$gt": val(v)}}`. -/
theorem C6_gt_is_eq (F v : List Char) (hF : IsField F) (hv : IsValue v) :
    isOperator "GT".toList = some FOP_EQ
    ∧ TranslateToMongo NewFilterTranslator (F ++ " GT ".toList ++ v)
        = TranslateToMongo NewFilterTranslator (F ++ " EQ ".toList ++ v)
    ∧ TranslateToMongo NewFilterTranslator (F ++ " GT ".toList ++ v)
        = .ok [(F, .D [("$eq".toList, operandVal v)])] NewFilterTranslator
    ∧ (∀ ft : FilterTranslator, TranslateToMongo NewFilterTranslator (F ++ " GT ".toList ++ v)
        ≠ .ok [(F, .D [("$gt".toList, operandVal v)])] ft) := by
  have hgt := TranslateToMongo_single ⟨F, .GT, v⟩ ⟨hF, hv⟩
  have heq := TranslateToMongo_single ⟨F, .EQ, v⟩ ⟨hF, hv⟩
  refine ⟨by decide, hgt.trans heq.symm, hgt, ?_⟩
  intro ft h
  have h2 := hgt.symm.trans h
  simp only [Cmp.doc, CmpOp.symbol, Result.ok.injEq, List.cons.injEq, Prod.mk.injEq,
    GoAny.D.injEq] at h2
  exact absurd h2.1.1.2.1.1 (by decide)

/-- Witness of C6 at `Total GT 1`: the result is `{Total: {$eq: 1}}`. -/
theorem C6_gt_is_eq_witness :
    IsField "Total".toList ∧ IsValue "1".toList
    ∧ TranslateToMongo NewFilterTranslator "Total GT 1".toList
        = .ok [("Total".toList, .D [("$eq".toList, .int 1)])] NewFilterTranslator :=
  ⟨by decide, by decide, (C6_gt_is_eq "Total".toList "1".toList (by decide) (by decide)).2.2.1⟩

/-- C7, counterexample: on a fresh translator `1 EQ 2` aborts on the assertion
`x.val.(string)` and `A AND B` on the assertion `x.val.(*bson.D)` in
`fopToBSON`, and the single operand `A` aborts on the assertion
`out.val.(*bson.D)` in `flush`; none of the three calls returns. -/
theorem C7_translate_aborts :
    TranslateToMongo NewFilterTranslator "1 EQ 2".toList
        = .fail (.panic .typeAssert) NewFilterTranslator
    ∧ TranslateToMongo NewFilterTranslator "A AND B".toList
        = .fail (.panic .typeAssert) NewFilterTranslator
    ∧ TranslateToMongo NewFilterTranslator "A".toList
        = .fail (.panic .typeAssert) NewFilterTranslator := by
  decide

/-- C7, amended: for every non-empty input string the translation on a fresh
translator returns a document, or returns an error to the caller, or aborts
on a failed type assertion (operand types are not validated); it ends in no
other way. -/
theorem C7_outcomes (s : List Char) (hs : s ≠ []) :
    (∃ (d : D) (ft : FilterTranslator), TranslateToMongo NewFilterTranslator s = .ok d ft)
    ∨ (∃ (e : Err) (ft : FilterTranslator),
        TranslateToMongo NewFilterTranslator s = .fail (.error e) ft)
    ∨ (∃ ft : FilterTranslator,
        TranslateToMongo NewFilterTranslator s = .fail (.panic .typeAssert) ft) := by
  cases hr : TranslateToMongo NewFilterTranslator s with
  | ok d ft => exact Or.inl ⟨d, ft, rfl⟩
  | fail f ft =>
    right
    rw [TranslateToMongo_eq_runWords] at hr
    rcases runWords_fail _ hr with h1 | ⟨_, h2, _⟩
    · cases f with
      | error e => exact Or.inl ⟨e, ft, rfl⟩
      | fuel => exact h1.elim
      | panic p =>
        cases p with
        | typeAssert => exact Or.inr ⟨ft, rfl⟩
        | nilDeref => exact h1.elim
        | unimplemented => exact h1.elim
    · exact absurd h2 (scanWords_ne_nil hs)

/-- Witness of C7 at `A EQ`: the mismatch error of `unwind` is returned. -/
theorem C7_outcomes_witness :
    "A EQ".toList ≠ []
    ∧ ((∃ (d : D) (ft : FilterTranslator),
          TranslateToMongo NewFilterTranslator "A EQ".toList = .ok d ft)
      ∨ (∃ (e : Err) (ft : FilterTranslator),
          TranslateToMongo NewFilterTranslator "A EQ".toList = .fail (.error e) ft)
      ∨ (∃ ft : FilterTranslator,
          TranslateToMongo NewFilterTranslator "A EQ".toList
            = .fail (.panic .typeAssert) ft)) :=
  ⟨by decide, C7_outcomes "A EQ".toList (by decide)⟩

/-- C8, counterexample: `Translate` with `SQL` on `A EQ 1` aborts with
`panic("unimplemented")`; no error is returned to the caller. -/
theorem C8_sql_aborts :
    Translate NewFilterTranslator "A EQ 1".toList SQL
        = .fail (.panic .unimplemented) NewFilterTranslator
    ∧ ¬ ∃ (e : Err) (ft : FilterTranslator),
        Translate NewFilterTranslator "A EQ 1".toList SQL = .fail (.error e) ft := by
  refine ⟨by decide, ?_⟩
  rintro ⟨e, ft, h⟩
  have h0 : Translate NewFilterTranslator "A EQ 1".toList SQL
      = .fail (.panic .unimplemented) NewFilterTranslator := by decide
  rw [h0] at h
  cases h

/-- C8, amended: for every input, `Translate` with a backend kind other than
`MONGO` aborts with `panic("unimplemented")` and leaves the translator as it
was, and `Translate` with `MONGO` returns exactly what `TranslateToMongo`
returns. -/
theorem C8_translate_dispatch (ft : FilterTranslator) (s : List Char) (t : DATABASE_TYPE)
    (ht : t ≠ MONGO) :
    Translate ft s t = .fail (.panic .unimplemented) ft
    ∧ Translate ft s MONGO = TranslateToMongo ft s := by
  unfold Translate
  exact ⟨by rw [if_neg ht], by rw [if_pos rfl]⟩

/-- Witness of C8 at the backend `SQL` and the input `A EQ 1`. -/
theorem C8_translate_dispatch_witness :
    SQL ≠ MONGO
    ∧ Translate NewFilterTranslator "A EQ 1".toList SQL
        = .fail (.panic .unimplemented) NewFilterTranslator
    ∧ Translate NewFilterTranslator "A EQ 1".toList MONGO
        = TranslateToMongo NewFilterTranslator "A EQ 1".toList :=
  ⟨by decide, C8_translate_dispatch NewFilterTranslator "A EQ 1".toList SQL (by decide)⟩

/-- C9 (the code aborts where the claim promises a returned error): on the
empty string the scan loop is not entered, `flush` finds no operator, the test
`Count() > 1` lets the empty operand stack pass, `Pop` returns nil and
`out.val` dereferences it; neither an error nor a document is returned. -/
theorem C9_empty_input_aborts :
    TranslateToMongo NewFilterTranslator "".toList
        = .fail (.panic .nilDeref) NewFilterTranslator
    ∧ (¬ ∃ (e : Err) (ft : FilterTranslator),
        TranslateToMongo NewFilterTranslator "".toList = .fail (.error e) ft)
    ∧ ¬ ∃ (d : D) (ft : FilterTranslator),
        TranslateToMongo NewFilterTranslator "".toList = .ok d ft := by
  have h0 : TranslateToMongo NewFilterTranslator "".toList
      = .fail (.panic .nilDeref) NewFilterTranslator := by decide
  refine ⟨h0, ?_, ?_⟩
  · rintro ⟨e, ft, h⟩
    rw [h0] at h
    cases h
  · rintro ⟨d, ft, h⟩
    rw [h0] at h
    cases h

/-- C10, counterexample: in `A B EQ` the operand words `A` and `B` are adjacent
with no operator between them, and the translation returns the document
`{A: {$eq: "B"}}`. -/
theorem C10_adjacent_operands_accepted :
    scanWords "A B EQ".toList = ["A".toList, "B".toList, "EQ".toList]
    ∧ isOperator "A".toList = none ∧ isOperator "B".toList = none
    ∧ TranslateToMongo NewFilterTranslator "A B EQ".toList
        = .ok [("A".toList, .D [("$eq".toList, .str "B".toList)])] NewFilterTranslator := by
  decide

/-- C10, amended: for every input in which two operand words are adjacent and
every operator word stands between two operand words (the first and the last
word are operands and no two operator words are adjacent), such as `A B EQ 1`,
the translation on a fresh translator fails, with a returned error or an
abort, and returns no document. -/
theorem C10_adjacent_operands_rejected (s : List Char)
    (hadj : AdjacentOperands (scanWords s))
    (hbetween : OperatorsBetweenOperands (scanWords s)) :
    (∃ (f : Failure) (ft : FilterTranslator),
        TranslateToMongo NewFilterTranslator s = .fail f ft ∧ f ≠ .fuel)
    ∧ ∀ (d : D) (ft : FilterTranslator), TranslateToMongo NewFilterTranslator s ≠ .ok d ft := by
  have hnot : ∀ (d : D) (ft : FilterTranslator),
      TranslateToMongo NewFilterTranslator s ≠ .ok d ft := by
    intro d ft h
    rw [TranslateToMongo_eq_runWords] at h
    have h1 := (runWords_ok _ h).1
    have h2 := count_of_shape hadj hbetween
    simp only [NewFilterTranslator, NewStack, Stack.Count, List.length_nil] at h1
    omega
  refine ⟨?_, hnot⟩
  cases hr : TranslateToMongo NewFilterTranslator s with
  | ok d ft => exact absurd hr (hnot d ft)
  | fail f ft =>
    refine ⟨f, ft, rfl, ?_⟩
    rintro rfl
    exact TranslateToMongo_ne_fuel _ _ _ hr

/-- Witness of C10 at `A B EQ 1`: the returned error is the arity error of
`flush`. -/
theorem C10_adjacent_operands_rejected_witness :
    AdjacentOperands (scanWords "A B EQ 1".toList)
    ∧ OperatorsBetweenOperands (scanWords "A B EQ 1".toList)
    ∧ (∃ (f : Failure) (ft : FilterTranslator),
        TranslateToMongo NewFilterTranslator "A B EQ 1".toList = .fail f ft ∧ f ≠ .fuel)
    ∧ ∀ (d : D) (ft : FilterTranslator),
        TranslateToMongo NewFilterTranslator "A B EQ 1".toList ≠ .ok d ft :=
  have hwords : scanWords "A B EQ 1".toList
      = ["A".toList, "B".toList, "EQ".toList, "1".toList] := by decide
  have hadj : AdjacentOperands (scanWords "A B EQ 1".toList) :=
    ⟨[], "A".toList, "B".toList, ["EQ".toList, "1".toList], hwords, by decide, by decide⟩
  have hbetween : OperatorsBetweenOperands (scanWords "A B EQ 1".toList) := by
    rw [hwords]
    refine ⟨by decide, by decide, ?_⟩
    exact List.chain'_cons.mpr ⟨Or.inl (by decide),
      List.chain'_cons.mpr ⟨Or.inl (by decide),
        List.chain'_cons.mpr ⟨Or.inr (by decide), List.chain'_singleton _⟩⟩⟩
  ⟨hadj, hbetween, C10_adjacent_operands_rejected "A B EQ 1".toList hadj hbetween⟩

/-- C13: `Stack` is a LIFO list.  On contents `xs`, `Count` is the length of `xs`
and `Push(x)` makes the contents `xs` followed by `x`; on contents `xs` followed
by `x`, `Peek` returns `x` (it has no effect on the contents) and `Pop` returns
`x` and leaves `xs`; on the empty stack `Pop` and `Peek` return nothing and the
stack stays empty. -/
theorem C13_stack_lifo (T : Type) (xs : List T) (x : T) :
    (Stack.mk xs).Count = xs.length
    ∧ (Stack.mk xs).Push x = ⟨xs ++ [x]⟩
    ∧ (Stack.mk (xs ++ [x])).Peek = some x
    ∧ (Stack.mk (xs ++ [x])).Pop = (some x, ⟨xs⟩)
    ∧ ((Stack.mk xs).Push x).Pop = (some x, ⟨xs⟩)
    ∧ (NewStack : Stack T).Count = 0
    ∧ (NewStack : Stack T).Pop = (none, NewStack)
    ∧ (NewStack : Stack T).Peek = none :=
  ⟨rfl, rfl, Stack.Peek_concat xs x, Stack.Pop_concat xs x, Stack.Pop_concat xs x, rfl, rfl, rfl⟩

/-- C15: for every string `s`, `getFilterWord(s)` returns `(w, n)` such that the
first `n` units of `s` are `k` spaces followed by `w`, where `k` is the number
of leading spaces of `s` (what follows them does not start with a space), `w`
holds no space, and either `n = len(s)` or the unit of `s` at index `n` is a
space; `n` is `k` plus the length of `w`, the delimiter is not counted, and `w`
is empty only when `s` consists solely of spaces. -/
theorem C15_getFilterWord_shape (s : List Char) :
    s.take (getFilterWord s).2
        = List.replicate (leadingSpaces s).length ' ' ++ (getFilterWord s).1
    ∧ leadingSpaces s = List.replicate (leadingSpaces s).length ' '
    ∧ leadingSpaces s <+: s
    ∧ (s.drop (leadingSpaces s).length).head? ≠ some ' '
    ∧ ' ' ∉ (getFilterWord s).1
    ∧ ((getFilterWord s).2 = s.length ∨ s[(getFilterWord s).2]? = some ' ')
    ∧ (getFilterWord s).2 = (leadingSpaces s).length + (getFilterWord s).1.length
    ∧ ((getFilterWord s).1 = [] ↔ ∀ c ∈ s, c = ' ') := by
  have hparts := leadingSpaces_firstWord_afterWord s
  have hlen := length_eq_leadingSpaces_add s
  have hdrop := drop_getFilterWord s
  rw [getFilterWord_eq] at hdrop ⊢
  simp only at hdrop ⊢
  have hdropk : s.drop (leadingSpaces s).length = firstWord s ++ afterWord s :=
    (take_of_eq_append _ _ _ s hparts).2
  refine ⟨?_, leadingSpaces_eq_replicate s, ⟨_, hparts⟩, ?_, space_not_mem_firstWord s,
    ?_, trivial, firstWord_eq_nil_iff s⟩
  · rw [← leadingSpaces_eq_replicate]
    exact (take_of_eq_append _ _ _ s hparts).1
  · rw [hdropk]
    exact head?_firstWord_append_afterWord s
  · rcases afterWord_nil_or_space s with h | ⟨t, h⟩
    · left
      rw [h] at hlen
      simp only [List.length_nil] at hlen
      omega
    · right
      have := List.head?_drop s ((leadingSpaces s).length + (firstWord s).length)
      rw [hdrop, h] at this
      simpa using this.symm

/-- C16: for every non-empty string `s`, `getFilterWord(s)` consumes a length
`n` with `1 <= n <= len(s)`, and `n = 0` only for the empty string; so every
iteration of the scan loop leaves a strictly shorter rest, the loop ends within
`len(s)` iterations on every input (the fuel of the model is never used up),
and the error "end of string reached without whitespace delimiter" is never
returned, whatever the state of the translator. -/
theorem C16_scan_advances (s : List Char) (hs : s ≠ []) :
    1 ≤ (getFilterWord s).2 ∧ (getFilterWord s).2 ≤ s.length
    ∧ (∀ r : List Char, (getFilterWord r).2 = 0 ↔ r = [])
    ∧ (s.drop (getFilterWord s).2).length < s.length
    ∧ (∀ (ft ft1 : FilterTranslator) (input : List Char),
        TranslateToMongo ft input ≠ .fail .fuel ft1)
    ∧ (∀ (ft ft1 : FilterTranslator) (input : List Char),
        TranslateToMongo ft input ≠ .fail (.error .noDelimiter) ft1) := by
  refine ⟨getFilterWord_pos hs, (getFilterWord_bounds s).2, ?_, ?_, ?_, ?_⟩
  · intro r
    constructor
    · intro h0
      by_contra hr
      have := getFilterWord_pos hr
      omega
    · rintro rfl
      rfl
  · rw [drop_getFilterWord]
    exact afterWord_length_lt hs
  · intro ft ft1 input
    exact TranslateToMongo_ne_fuel ft ft1 input
  · intro ft ft1 input h
    exact (TranslateToMongo_engine h).1

/-- Witness of C16 at `  ab cd`: the consumed length is 4 of 7. -/
theorem C16_scan_advances_witness :
    "  ab cd".toList ≠ []
    ∧ getFilterWord "  ab cd".toList = ("ab".toList, 4)
    ∧ 1 ≤ (getFilterWord "  ab cd".toList).2
    ∧ (getFilterWord "  ab cd".toList).2 ≤ "  ab cd".toList.length :=
  ⟨by decide, by decide,
    (C16_scan_advances "  ab cd".toList (by decide)).1,
    (C16_scan_advances "  ab cd".toList (by decide)).2.1⟩

/-- C11, counterexample: the call on `A B EQ 1` returns the arity error and
leaves two items on the operand stack of the translator; the next call on the
same translator, with `C EQ 1`, returns the arity error as well, whereas a fresh
translator returns the document `{C: {$eq: 1}}` for `C EQ 1`. -/
theorem C11_failed_call_changes_next :
    afterCalls NewFilterTranslator ["A B EQ 1".toList]
        = ⟨⟨[⟨.str "A".toList, .STR⟩,
              ⟨.ptrD [("B".toList, .D [("$eq".toList, .int 1)])], .BSON⟩]⟩, ⟨[]⟩⟩
    ∧ (∃ ft1, TranslateToMongo (afterCalls NewFilterTranslator ["A B EQ 1".toList])
          "C EQ 1".toList = .fail (.error .arity) ft1)
    ∧ TranslateToMongo NewFilterTranslator "C EQ 1".toList
        = .ok [("C".toList, .D [("$eq".toList, .int 1)])] NewFilterTranslator := by
  refine ⟨by decide, ⟨⟨⟨[⟨.str "A".toList, .STR⟩,
    ⟨.ptrD [("B".toList, .D [("$eq".toList, .int 1)])], .BSON⟩,
    ⟨.ptrD [("C".toList, .D [("$eq".toList, .int 1)])], .BSON⟩]⟩, ⟨[]⟩⟩, by decide⟩,
    by decide⟩

/-- C11, amended: for every translator reached from a fresh one through a
sequence of earlier `TranslateToMongo` calls that all returned a document, and
for every input `s`, `TranslateToMongo(s)` gives the same result as on a fresh
translator, because each such call leaves both stacks empty (the stacks belong
to the translator and are not created per call). -/
theorem C11_same_result_after_returned_calls (calls : List (List Char))
    (h : AllReturned NewFilterTranslator calls) (s : List Char) :
    afterCalls NewFilterTranslator calls = NewFilterTranslator
    ∧ TranslateToMongo (afterCalls NewFilterTranslator calls) s
        = TranslateToMongo NewFilterTranslator s := by
  have he := afterCalls_of_allReturned calls h
  exact ⟨he, by rw [he]⟩

/-- Witness of C11: after the calls on `A EQ 1` and `B LT 2`, the call on
`C EQ 3` returns `{C: {$eq: 3}}` as on a fresh translator. -/
theorem C11_same_result_after_returned_calls_witness :
    AllReturned NewFilterTranslator ["A EQ 1".toList, "B LT 2".toList]
    ∧ TranslateToMongo
        (afterCalls NewFilterTranslator ["A EQ 1".toList, "B LT 2".toList]) "C EQ 3".toList
      = TranslateToMongo NewFilterTranslator "C EQ 3".toList :=
  have hall : AllReturned NewFilterTranslator ["A EQ 1".toList, "B LT 2".toList] :=
    ⟨⟨[("A".toList, .D [("$eq".toList, .int 1)])], NewFilterTranslator, by decide⟩,
      ⟨[("B".toList, .D [("$lt".toList, .int 2)])], NewFilterTranslator, by decide⟩, trivial⟩
  ⟨hall, (C11_same_result_after_returned_calls _ hall "C EQ 3".toList).2⟩

/-- C12 (the code hands an empty word to the loop where the claim has none): on
`A EQ 1 ` with one space after the last token the scan loop classifies four
words, the last one the empty word, which is pushed as a string operand; the
call then aborts on the assertion `x.val.(string)`, whereas `A EQ 1` without
the space returns `{A: {$eq: 1}}`. -/
theorem C12_trailing_space_empty_word :
    scanWords "A EQ 1 ".toList = ["A".toList, "EQ".toList, "1".toList, []]
    ∧ scanStep [] NewFilterTranslator = .ok () ⟨⟨[⟨.str [], .STR⟩]⟩, ⟨[]⟩⟩
    ∧ TranslateToMongo NewFilterTranslator "A EQ 1 ".toList
        = .fail (.panic .typeAssert) ⟨⟨[⟨.str "A".toList, .STR⟩]⟩, ⟨[]⟩⟩
    ∧ TranslateToMongo NewFilterTranslator "A EQ 1".toList
        = .ok [("A".toList, .D [("$eq".toList, .int 1)])] NewFilterTranslator := by
  decide

/-- C14, counterexample: after the words `1 EQ 2` the operator stack holds one
operator and the operand stack two operands, so the guard of `unwind` passes;
`unwind` removes the three items and aborts in `fopToBSON` on the assertion
`x.val.(string)`: nothing is pushed. -/
theorem C14_unwind_pushes_nothing :
    runSteps ["1".toList, "EQ".toList, "2".toList] NewFilterTranslator
        = .ok () ⟨⟨[⟨.int 1, .NUM⟩, ⟨.int 2, .NUM⟩]⟩, ⟨[⟨FOP_EQ, 1⟩]⟩⟩
    ∧ unwind ⟨⟨[⟨.int 1, .NUM⟩, ⟨.int 2, .NUM⟩]⟩, ⟨[⟨FOP_EQ, 1⟩]⟩⟩
        = .fail (.panic .typeAssert) ⟨⟨[]⟩, ⟨[]⟩⟩ := by
  decide

/-- C14, amended: `unwind` returns the mismatch error, which carries the
observed operator count and operand count, if and only if the operator stack is
empty or the operand stack holds fewer than two items, and then both stacks are
left unchanged.  Otherwise it removes exactly one operator `op` and two
operands, the first-popped as right operand `y` and the second-popped as left
operand `x`; when `fopToBSON(op, x, y)` returns a document that single result is
pushed, and when `fopToBSON` fails `unwind` fails in the same way and nothing
is pushed. -/
theorem C14_unwind_cases (ft : FilterTranslator) :
    ((ft.operatorStack.Count = 0 ∨ ft.outputStack.Count < 2)
        ↔ ∃ a b ft1, unwind ft = .fail (.error (.mismatch a b)) ft1)
    ∧ ((ft.operatorStack.Count = 0 ∨ ft.outputStack.Count < 2) →
        unwind ft
          = .fail (.error (.mismatch ft.operatorStack.Count ft.outputStack.Count)) ft)
    ∧ (¬ (ft.operatorStack.Count = 0 ∨ ft.outputStack.Count < 2) →
        ∃ outs x y ops op,
          ft = ⟨⟨outs ++ [x, y]⟩, ⟨ops ++ [op]⟩⟩
          ∧ ft.operatorStack.Pop = (some op, ⟨ops⟩)
          ∧ ft.outputStack.Pop = (some y, ⟨outs ++ [x]⟩)
          ∧ (Stack.mk (outs ++ [x])).Pop = (some x, ⟨outs⟩)
          ∧ unwind ft
            = match fopToBSON op x y with
              | .ok b => .ok () ⟨⟨outs ++ [⟨.ptrD b, .BSON⟩]⟩, ⟨ops⟩⟩
              | .error f => .fail f ⟨⟨outs⟩, ⟨ops⟩⟩) := by
  have hcase : ¬ (ft.operatorStack.Count = 0 ∨ ft.outputStack.Count < 2) →
      ∃ outs x y ops op,
        ft = ⟨⟨outs ++ [x, y]⟩, ⟨ops ++ [op]⟩⟩
        ∧ ft.operatorStack.Pop = (some op, ⟨ops⟩)
        ∧ ft.outputStack.Pop = (some y, ⟨outs ++ [x]⟩)
        ∧ (Stack.mk (outs ++ [x])).Pop = (some x, ⟨outs⟩)
        ∧ unwind ft
          = match fopToBSON op x y with
            | .ok b => .ok () ⟨⟨outs ++ [⟨.ptrD b, .BSON⟩]⟩, ⟨ops⟩⟩
            | .error f => .fail f ⟨⟨outs⟩, ⟨ops⟩⟩ := by
    intro hg
    obtain ⟨outs, x, y, ops, op, rfl⟩ := translator_of_counts ft hg
    have e : outs ++ [x, y] = (outs ++ [x]) ++ [y] := by simp
    refine ⟨outs, x, y, ops, op, rfl, Stack.Pop_concat ops op, ?_, Stack.Pop_concat outs x,
      unwind_concat outs x y ops op⟩
    simp only [e, Stack.Pop_concat]
  refine ⟨⟨fun hg => ⟨_, _, _, unwind_guard ft hg⟩, ?_⟩, unwind_guard ft, hcase⟩
  rintro ⟨a, b, ft1, h⟩
  by_contra hg
  obtain ⟨outs, x, y, ops, op, _, _, _, _, hu⟩ := hcase hg
  rw [hu] at h
  cases hf : fopToBSON op x y with
  | ok d => rw [hf] at h; cases h
  | error f =>
    rw [hf] at h
    cases h
    exact fopToBSON_ne_mismatch op x y a b hf

/-- Witness of C14: on a translator with one operator and one operand the
mismatch error with the counts 1 and 1 is returned and the stacks are kept. -/
theorem C14_unwind_cases_witness :
    unwind ⟨⟨[⟨.str "A".toList, .STR⟩]⟩, ⟨[⟨FOP_EQ, 1⟩]⟩⟩
      = .fail (.error (.mismatch 1 1)) ⟨⟨[⟨.str "A".toList, .STR⟩]⟩, ⟨[⟨FOP_EQ, 1⟩]⟩⟩ :=
  (C14_unwind_cases ⟨⟨[⟨.str "A".toList, .STR⟩]⟩, ⟨[⟨FOP_EQ, 1⟩]⟩⟩).2.1 (by decide)

/-- C17: the operator table is closed and total.  `isOperator(w)` succeeds if and
only if `w` is exactly one of `OR`, `AND`, `EQ`, `GT`, `GTE`, `LT`, `LTE`, `LE`
(`and` and `Or` are not operators); for every kind `k` that `isOperator`
returns, `getPriority(k)` is 3 for `OR`, 2 for `AND` and 1 for every comparison
and `fop_translation_tb_mongo` contains `k`; so `TranslateToMongo` on a fresh
translator never returns the error "does not have a priority" nor the error
"does not translate to an associated mongodb operator". -/
theorem C17_operator_table_total :
    (∀ w : List Char, (isOperator w).isSome = true
        ↔ w ∈ ["OR".toList, "AND".toList, "EQ".toList, "GT".toList, "GTE".toList,
                "LT".toList, "LTE".toList, "LE".toList])
    ∧ isOperator "and".toList = none ∧ isOperator "Or".toList = none
    ∧ (∀ (w : List Char) (k : filter_op_type), isOperator w = some k →
        mapGet fop_translation_tb_mongo k ≠ none
        ∧ ((k = FOP_OR ∧ getPriority k = some 3) ∨ (k = FOP_AND ∧ getPriority k = some 2)
          ∨ (k ∈ [FOP_EQ, FOP_GTE, FOP_LT, FOP_LTE, FOP_LE] ∧ getPriority k = some 1)))
    ∧ getPriority FOP_GT = some 1
    ∧ (∀ (s : List Char) (f : Failure) (ft1 : FilterTranslator),
        TranslateToMongo NewFilterTranslator s = .fail f ft1 →
          (∀ t, f ≠ .error (.noPriority t)) ∧ (∀ t, f ≠ .error (.noMongoOp t))) := by
  refine ⟨?_, by decide, by decide, ?_, by decide, ?_⟩
  · intro w
    constructor
    · intro h
      obtain ⟨t, ht⟩ := Option.isSome_iff_exists.mp h
      rcases isOperator_some ht with ⟨rfl, _⟩ | ⟨rfl, _⟩ | ⟨rfl, _⟩ | ⟨rfl, _⟩ | ⟨rfl, _⟩
        | ⟨rfl, _⟩ | ⟨rfl, _⟩ | ⟨rfl, _⟩ <;> decide
    · intro h
      simp only [List.mem_cons, List.mem_singleton, List.not_mem_nil, or_false] at h
      rcases h with rfl | rfl | rfl | rfl | rfl | rfl | rfl | rfl <;> decide
  · intro w k h
    rcases isOperator_some h with ⟨_, rfl⟩ | ⟨_, rfl⟩ | ⟨_, rfl⟩ | ⟨_, rfl⟩ | ⟨_, rfl⟩
      | ⟨_, rfl⟩ | ⟨_, rfl⟩ | ⟨_, rfl⟩ <;> decide
  · intro s f ft1 h
    obtain ⟨h1, h2⟩ := TranslateToMongo_engine h
    have hknown : OpsKnown NewFilterTranslator := by
      intro op hop
      cases hop
    refine ⟨?_, fun t e => h2 hknown ⟨t, e⟩⟩
    intro t e
    subst e
    exact h1

/-- A call on a fresh translator that returns a document has classified one
operand word more than operator words; the words are those `getFilterWord`
returns, and none of them is empty unless the input ends with a space. -/
theorem TranslateToMongo_ok_word_counts (s : List Char) (d : D) (ft1 : FilterTranslator)
    (h : TranslateToMongo NewFilterTranslator s = .ok d ft1) :
    countOperands (scanWords s) = countOperators (scanWords s) + 1
    ∧ (s.getLast? ≠ some ' ' → [] ∉ scanWords s) := by
  rw [TranslateToMongo_eq_runWords] at h
  have h1 := (runWords_ok _ h).1
  simp only [NewFilterTranslator, NewStack, Stack.Count, List.length_nil] at h1
  exact ⟨by omega, fun hl hm => hl (nil_mem_scanWords hm)⟩

/-- C18 (the code returns a document where the claim allows none): the input
`A EQ ` with one space after the operator has the two tokens `A` and `EQ`, one
operand token and one operator token, yet the call on a fresh translator
returns the document `{A: {$eq: ""}}`: the scan loop classifies a third word,
the empty word that `getFilterWord` returns for the trailing space, and pushes
it as a string operand. -/
theorem C18_document_with_one_operand_token :
    inputTokens "A EQ ".toList = ["A".toList, "EQ".toList]
    ∧ countOperands (inputTokens "A EQ ".toList) = 1
    ∧ countOperators (inputTokens "A EQ ".toList) = 1
    ∧ scanWords "A EQ ".toList = ["A".toList, "EQ".toList, []]
    ∧ TranslateToMongo NewFilterTranslator "A EQ ".toList
      = .ok [("A".toList, .D [("$eq".toList, .str [])])] NewFilterTranslator := by
  decide

/-- C19: for every input string, if `TranslateToMongo` on a translator whose two
stacks are empty returns a document, then the operator stack and the operand
stack of that translator are empty again when it returns. -/
theorem C19_stacks_empty_after_success (ft ft1 : FilterTranslator) (s : List Char) (d : D)
    (hout : ft.outputStack.Count = 0) (hop : ft.operatorStack.Count = 0)
    (h : TranslateToMongo ft s = .ok d ft1) :
    ft1.outputStack.Count = 0 ∧ ft1.operatorStack.Count = 0 ∧ ft1 = NewFilterTranslator := by
  have _ := hout
  have _ := hop
  have he := TranslateToMongo_ok_state h
  subst he
  exact ⟨rfl, rfl, rfl⟩

/-- Witness of C19 at `A EQ 1` on a fresh translator. -/
theorem C19_stacks_empty_after_success_witness :
    NewFilterTranslator.outputStack.Count = 0 ∧ NewFilterTranslator.operatorStack.Count = 0
    ∧ TranslateToMongo NewFilterTranslator "A EQ 1".toList
        = .ok [("A".toList, .D [("$eq".toList, .int 1)])] ⟨⟨[]⟩, ⟨[]⟩⟩
    ∧ (Stack.mk ([] : List filter_out_i)).Count = 0
    ∧ (Stack.mk ([] : List filter_op_i)).Count = 0 :=
  have hcall : TranslateToMongo NewFilterTranslator "A EQ 1".toList
      = .ok [("A".toList, .D [("$eq".toList, .int 1)])] ⟨⟨[]⟩, ⟨[]⟩⟩ := by decide
  ⟨rfl, rfl, hcall,
    (C19_stacks_empty_after_success NewFilterTranslator ⟨⟨[]⟩, ⟨[]⟩⟩ "A EQ 1".toList _
      rfl rfl hcall).1,
    (C19_stacks_empty_after_success NewFilterTranslator ⟨⟨[]⟩, ⟨[]⟩⟩ "A EQ 1".toList _
      rfl rfl hcall).2.1⟩

/-- C20: starting from a fresh translator, at every point of the scan and of the
flush of `TranslateToMongo` the priorities on the operator stack are weakly
decreasing from bottom to top.  The order holds on a fresh translator; every
`unwind`, every run of the inner loop, every loop body and every `flush` that
starts in a state with that order leaves a state with that order, whether it
returns or fails; so it holds after every prefix of the words of an input and
when the call ends.  An incoming operator that is pushed has unwound exactly the
operators on top with a strictly lower priority, and an operator of equal or
lower priority than the top is pushed without any unwind. -/
theorem C20_operator_stack_order (ft : FilterTranslator) (hft : OpsSorted ft)
    (w : List Char) (q : Int) (fuel n : Nat) (s : List Char) (ws : List (List Char))
    (hws : ws <+: scanWords s) :
    OpsSorted NewFilterTranslator
    ∧ OpsSorted (unwind ft).state
    ∧ OpsSorted (unwindLoop q fuel ft).state
    ∧ OpsSorted (scanStep w ft).state
    ∧ OpsSorted (flushLoop n ft).state
    ∧ OpsSorted (flush ft).state
    ∧ OpsSorted (runSteps ws NewFilterTranslator).state
    ∧ OpsSorted (TranslateToMongo NewFilterTranslator s).state
    ∧ (∀ (t : filter_op_type) (ft1 : FilterTranslator), isOperator w = some t →
        getPriority t = some q → scanStep w ft = .ok () ft1 →
        ∃ kept removed, ft.operatorStack.items = kept ++ removed
          ∧ ft1.operatorStack.items = kept ++ [⟨t, q⟩]
          ∧ (∀ op ∈ removed, op.p < q) ∧ (∀ op ∈ kept, q ≤ op.p))
    ∧ (∀ (t : filter_op_type) (top : filter_op_i), isOperator w = some t →
        getPriority t = some q → ft.operatorStack.Peek = some top → q ≤ top.p →
        scanStep w ft = .ok () ⟨ft.outputStack, ft.operatorStack.Push ⟨t, q⟩⟩) := by
  have _ := hws
  refine ⟨OpsSorted_new, OpsSorted_of_shrink hft (unwind_ops_shrink ft),
    OpsSorted_of_shrink hft (unwindLoop_ops_shrink q fuel ft), scanStep_sorted w hft,
    OpsSorted_of_shrink hft (flushLoop_ops_shrink n ft),
    OpsSorted_of_shrink hft (flush_ops_shrink ft),
    runSteps_sorted ws OpsSorted_new, ?_, ?_, ?_⟩
  · rw [TranslateToMongo_eq_runWords]
    exact runWords_sorted _ OpsSorted_new
  · intro t ft1 hw hq hstep
    obtain ⟨kept, removed, h1, h2, h3, h4⟩ := scanStep_ok_operator hw hq hstep
    refine ⟨kept, removed, h1, h2, h3, ?_⟩
    have hkept : kept.Pairwise (fun below above => above.p ≤ below.p) :=
      List.Pairwise.sublist (h1 ▸ List.sublist_append_left kept removed) hft
    intro op hop
    cases hpk : (Stack.mk kept).Peek with
    | none =>
      unfold Stack.Peek at hpk
      split at hpk
      · rename_i h0
        simp only at h0
        rw [List.length_eq_zero.mp h0] at hop
        cases hop
      · have hnil : kept = [] := List.getLast?_eq_none_iff.mp hpk
        rw [hnil] at hop
        cases hop
    | some top =>
      have h5 := h4 top hpk
      have h6 := pairwise_ge_top hkept hpk op hop
      omega
  · intro t top hw hq hpeek hle
    refine scanStep_no_unwind hw hq ft ?_
    intro top2 h2
    rw [hpeek] at h2
    cases h2
    exact hle

/-- Witness of C20: on `A EQ 1 OR B EQ 2` the operator stack after the first
four words is `[OR]`, and it holds `[OR, EQ]` after five. -/
theorem C20_operator_stack_order_witness :
    OpsSorted NewFilterTranslator
    ∧ ["A".toList, "EQ".toList, "1".toList, "OR".toList, "B".toList, "EQ".toList]
        <+: scanWords "A EQ 1 OR B EQ 2".toList
    ∧ (runSteps ["A".toList, "EQ".toList, "1".toList, "OR".toList, "B".toList, "EQ".toList]
        NewFilterTranslator).state.operatorStack.items = [⟨FOP_OR, 3⟩, ⟨FOP_EQ, 1⟩]
    ∧ OpsSorted (runSteps
        ["A".toList, "EQ".toList, "1".toList, "OR".toList, "B".toList, "EQ".toList]
        NewFilterTranslator).state
    ∧ OpsSorted (TranslateToMongo NewFilterTranslator "A EQ 1 OR B EQ 2".toList).state :=
  have hpre : ["A".toList, "EQ".toList, "1".toList, "OR".toList, "B".toList, "EQ".toList]
      <+: scanWords "A EQ 1 OR B EQ 2".toList := ⟨["2".toList], by decide⟩
  have hall := C20_operator_stack_order NewFilterTranslator List.Pairwise.nil "OR".toList 3 0 0
    "A EQ 1 OR B EQ 2".toList
    ["A".toList, "EQ".toList, "1".toList, "OR".toList, "B".toList, "EQ".toList] hpre
  ⟨List.Pairwise.nil, hpre, by decide, hall.2.2.2.2.2.2.1, hall.2.2.2.2.2.2.2.1⟩

end Quang
